import Mathlib

/-!
Shallow embedding of the vzclient pipeline (fixed-capacity byte buffer,
constant-run compressor, device reader, relational reader, influx hub and
bulk-copy pattern matching), together with theorems settling the spec's
testable properties against the code.

Byte strings are modelled as lists of byte values, Python integers as `Int`
or `Nat`, Python floats as `ℚ` (exact arithmetic), and raised exceptions as
`Except` escapes.
-/

/-- A Python `bytes` / `bytearray` value: list of byte values. -/
abbrev ByteStr := List Nat

/-- Python `Buffer` (src/vzclient/buffer.py): a fixed capacity plus the
current content `_storage[:_bytes_in_buffer]`. -/
structure Buffer where
  capacity : Nat
  content : ByteStr
deriving DecidableEq

/-- `Buffer.__len__`: number of bytes in the buffer. -/
def Buffer.len (b : Buffer) : Nat := b.content.length

/-- `Buffer.data()`: view of the first `_bytes_in_buffer` bytes. -/
def Buffer.data (b : Buffer) : ByteStr := b.content

/-- Outcome of `Buffer.write`: normal return with the byte count written, or
a `BufferError("Overflow")` escape.  Either way the buffer keeps the state it
had when the call ended. -/
inductive WriteResult where
  | ok (b : Buffer) (n : Nat)
  | overflow (b : Buffer)
deriving DecidableEq

/-- The `for x in args` loop of `Buffer.write`: for each argument, raise if
`end > capacity` *before* copying, otherwise append the argument and advance
`_bytes_in_buffer`.  The error value carries the content present when the
exception was raised. -/
def Buffer.writeLoop (cap : Nat) (content : ByteStr) :
    List ByteStr → Except ByteStr ByteStr
  | [] => .ok content
  | x :: xs =>
    if cap < content.length + x.length then .error content
    else Buffer.writeLoop cap (content ++ x) xs

/-- `Buffer.write(*args)` (src/vzclient/buffer.py lines 71-88). -/
def Buffer.write (b : Buffer) (args : List ByteStr) : WriteResult :=
  match Buffer.writeLoop b.capacity b.content args with
  | .ok c => .ok ⟨b.capacity, c⟩ (c.length - b.content.length)
  | .error c => .overflow ⟨b.capacity, c⟩

/-- The longest prefix of the argument list that `Buffer.write` commits
before overflowing, starting from `n` bytes already in a buffer of capacity
`cap`: arguments are committed one at a time while they fit. -/
def Buffer.fittingArgs (cap n : Nat) : List ByteStr → List ByteStr
  | [] => []
  | x :: xs =>
    if cap < n + x.length then []
    else x :: Buffer.fittingArgs cap (n + x.length) xs

theorem Buffer.writeLoop_overflow (cap : Nat) :
    ∀ (args : List ByteStr) (content : ByteStr),
    content.length ≤ cap →
    cap < content.length + (args.map List.length).sum →
    Buffer.writeLoop cap content args =
      .error (content ++ (Buffer.fittingArgs cap content.length args).flatten) := by
  intro args
  induction args with
  | nil =>
    intro content hle hover
    simp only [List.map_nil, List.sum_nil, Nat.add_zero] at hover
    omega
  | cons x xs ih =>
    intro content hle hover
    by_cases hx : cap < content.length + x.length
    · simp [Buffer.writeLoop, Buffer.fittingArgs, hx]
    · have hfit : content.length + x.length ≤ cap := by omega
      have hover' : cap < (content ++ x).length + (xs.map List.length).sum := by
        simp only [List.length_append]
        simp only [List.map_cons, List.sum_cons] at hover
        omega
      have := ih (content ++ x) (by simpa using hfit) hover'
      simp only [Buffer.writeLoop, if_neg hx, Buffer.fittingArgs]
      rw [this]
      simp [List.append_assoc, List.length_append]

/-- Hub state (src/vzclient/asyncio/influx_hub.py): the shared buffer, the
timestamp of the first sample in the buffer, and the output queue of byte
batches. -/
structure InfluxHub where
  buffer : Buffer
  t_buffer : Option Int
  output_queue : List ByteStr
deriving DecidableEq

/-- Names of the attributes defined on `Buffer` instances by the class body
of src/vzclient/buffer.py; attribute lookup on a `Buffer` succeeds exactly
for these. -/
def Buffer.attrNames : List String :=
  ["__init__", "capacity", "high_water_mark", "__len__", "data", "is_full",
   "write"]

/-- Python exception kinds relevant to the embedded code paths. -/
inductive PyError where
  | attributeError
  | typeError
deriving DecidableEq

/-- `InfluxHub.flush_buffer` (src/vzclient/asyncio/influx_hub.py 219-227).
It sets `_t_buffer = None`; if the buffer is truthy (`__len__ > 0`) it takes
`bytes(self._buffer.data())`, then evaluates `self._buffer.clear()` — an
attribute lookup on `Buffer` — and would then `put_nowait` the batch onto
the output queue.  `clear` is not among the attributes `Buffer` defines. -/
def InfluxHub.flushBuffer (h : InfluxHub) : Except PyError InfluxHub :=
  let h1 : InfluxHub := { h with t_buffer := none }
  if h1.buffer.len ≠ 0 then
    let batch := h1.buffer.data
    if Buffer.attrNames.contains "clear" then
      .ok { h1 with buffer := ⟨h1.buffer.capacity, []⟩,
                    output_queue := h1.output_queue ++ [batch] }
    else
      .error .attributeError
  else
    .ok h1

/-- Error branch of `DeviceReader.update`
(src/vzclient/asyncio/device_reader.py 118-140): a sampling failure
re-raises when `allowed_errors == 0` and otherwise decrements the budget and
is swallowed (`return False`). -/
def DeviceReader.updateOnError (allowed_errors : Int) : Except Unit Int :=
  if allowed_errors = 0 then .error () else .ok (allowed_errors - 1)

/-- Whether the reader surfaces an exception within the first `k`
consecutive sampling failures, starting from budget `allowed_errors`. -/
def DeviceReader.raisesWithin (allowed_errors : Int) : Nat → Bool
  | 0 => false
  | k + 1 =>
    match DeviceReader.updateOnError allowed_errors with
    | .error _ => true
    | .ok a => DeviceReader.raisesWithin a k

/-- A value accepted as a time bound by `MySqlDriver.iter_measurements`:
either a `datetime.datetime` (identified with its epoch timestamp in ms) or
an `int` timestamp. -/
inductive PyTime where
  | dt (epochMs : Int)
  | ts (v : Int)
deriving DecidableEq

/-- Python `int(x)` applied to an optional time bound: succeeds on an int
and raises `TypeError` on a `datetime` or on `None`. -/
def pyIntOfTime : Option PyTime → Except PyError Int
  | some (.ts v) => .ok v
  | some (.dt _) => .error .typeError
  | none => .error .typeError

/-- WHERE clause of the first query issued by `MySqlDriver.iter_measurements`
(src/vzclient/asyncio/mysql_driver.py 291-335), built exactly as in the
source: the `end` bound contributes `" AND timestamp < t1"` with
`t1 = timestamp(end)` for a datetime and `int(end)` for an int; the `begin`
bound contributes `" AND timestamp >= t0"` with `t0 = timestamp(begin)` for
a datetime but `int(end)` otherwise (source line 321). -/
def MySqlDriver.firstWhere (channel : Int) (begin_ end_ : Option PyTime) :
    Except PyError String :=
  let end_query : String :=
    match end_ with
    | none => ""
    | some (.dt m) => " AND timestamp < " ++ toString m
    | some (.ts v) => " AND timestamp < " ++ toString v
  let where_const := "channel_id = " ++ toString channel ++ end_query
  match begin_ with
  | none => .ok where_const
  | some (.dt m) => .ok (where_const ++ " AND timestamp >= " ++ toString m)
  | some (.ts _) =>
    match pyIntOfTime end_ with
    | .error e => .error e
    | .ok t0 => .ok (where_const ++ " AND timestamp >= " ++ toString t0)

/-- WHERE clause of every subsequent query of `iter_measurements`
(source line 335): keyset pagination on the last timestamp of the previous
chunk. -/
def MySqlDriver.nextWhere (where_const : String) (lastTs : Int) : String :=
  where_const ++ " AND timestamp > " ++ toString lastTs

/-- C1: when the hub flushes a non-empty shared buffer, the claim says it
atomically copies the content into an immutable batch, clears the buffer,
resets `t_buffer` and enqueues the batch; this requires `Buffer` to expose
`clear()`.  The code instead raises `AttributeError` on every flush of a
non-empty buffer, because `Buffer` (src/vzclient/buffer.py) defines no
`clear` method even though `InfluxHub.flush_buffer` and the repository's own
test `tests/buffer.py::test_clear` call it. -/
theorem c1_flush_nonempty_raises_attribute_error (h : InfluxHub)
    (hne : h.buffer.len ≠ 0) :
    InfluxHub.flushBuffer h = .error .attributeError := by
  have hc : ¬ h.buffer.content = [] := by
    intro e
    exact hne (by simp [Buffer.len, e])
  have hclear : ¬ "clear" ∈ Buffer.attrNames := by decide
  simp [InfluxHub.flushBuffer, Buffer.len, hc, hclear]

/-- Witness for C1: flushing a hub whose buffer holds one byte raises
`AttributeError`. -/
theorem c1_witness :
    (Buffer.len ⟨10, [65]⟩ ≠ 0) ∧
    InfluxHub.flushBuffer ⟨⟨10, [65]⟩, some 5, []⟩ = .error .attributeError :=
  ⟨by decide, c1_flush_nonempty_raises_attribute_error ⟨⟨10, [65]⟩, some 5, []⟩ (by decide)⟩

/-- C2 counterexample: the claim says an overflowing multi-argument write
leaves the buffer unchanged.  Writing `[1,2,3]` and `[4,5,6]` to an empty
buffer of capacity 5 raises the overflow error but leaves `[1,2,3]` in the
buffer: the length after the failed call is 3, not 0. -/
theorem c2_counterexample :
    Buffer.write ⟨5, []⟩ [[1, 2, 3], [4, 5, 6]] = .overflow ⟨5, [1, 2, 3]⟩ ∧
    Buffer.len ⟨5, [1, 2, 3]⟩ ≠ Buffer.len ⟨5, []⟩ := by
  constructor
  · rfl
  · decide

/-- C2 (amended): a call whose total concatenated length added to the current
length exceeds the capacity fails with the overflow error, and the buffer
afterwards holds its previous content followed by the longest prefix of the
arguments that fits: arguments are committed one at a time, so argument
prefixes that fit remain in the buffer (a single-argument overflowing call
leaves it unchanged). -/
theorem c2_overflow_keeps_fitting_args (b : Buffer) (args : List ByteStr)
    (hcap : b.content.length ≤ b.capacity)
    (hover : b.capacity < b.content.length + (args.map List.length).sum) :
    Buffer.write b args =
      .overflow ⟨b.capacity,
                 b.content ++ (Buffer.fittingArgs b.capacity b.content.length args).flatten⟩ := by
  unfold Buffer.write
  rw [Buffer.writeLoop_overflow b.capacity args b.content hcap hover]

/-- Witness for C2's amended theorem at the counterexample input. -/
theorem c2_witness :
    (([] : ByteStr).length ≤ 5) ∧
    (5 < ([] : ByteStr).length + (([[1, 2, 3], [4, 5, 6]] : List ByteStr).map List.length).sum) ∧
    Buffer.write ⟨5, []⟩ [[1, 2, 3], [4, 5, 6]] =
      .overflow ⟨5, [] ++ (Buffer.fittingArgs 5 ([] : ByteStr).length
                            [[1, 2, 3], [4, 5, 6]]).flatten⟩ :=
  ⟨by decide, by decide,
   c2_overflow_keeps_fitting_args ⟨5, []⟩ [[1, 2, 3], [4, 5, 6]] (by decide) (by decide)⟩

/-- C6: the claim (and the constructor docstring of `DeviceReader`) say a
budget of `n > 0` surfaces the n-th sampling failure.  The code checks the
budget *before* decrementing, so budget 1 swallows the first failure and
surfaces the second: for every `n`, the first `n` failures are swallowed and
failure `n + 1` is surfaced. -/
theorem c6_error_budget_off_by_one :
    DeviceReader.raisesWithin 0 1 = true ∧
    DeviceReader.raisesWithin 1 1 = false ∧
    DeviceReader.raisesWithin 1 2 = true ∧
    (∀ n : Nat, DeviceReader.raisesWithin (n : Int) n = false) ∧
    (∀ n : Nat, DeviceReader.raisesWithin (n : Int) (n + 1) = true) := by
  refine ⟨by decide, by decide, by decide, ?_, ?_⟩
  · intro n
    induction n with
    | zero => rfl
    | succ k ih =>
      have hne : ((k : Int) + 1) ≠ 0 := by omega
      simp only [DeviceReader.raisesWithin, DeviceReader.updateOnError,
                 Nat.cast_add, Nat.cast_one, if_neg hne, Int.add_sub_cancel]
      exact ih
  · intro n
    induction n with
    | zero => rfl
    | succ k ih =>
      have hne : ((k : Int) + 1) ≠ 0 := by omega
      simp only [DeviceReader.raisesWithin, DeviceReader.updateOnError,
                 Nat.cast_add, Nat.cast_one, if_neg hne, Int.add_sub_cancel]
      exact ih

/-- C5: the claim says the first query selects `timestamp >= begin` whether
the bounds are datetimes or integer timestamps.  For an integer `begin` the
code computes the lower bound from `int(end)` (mysql_driver.py line 321), so
with `begin = 100, end = 200` the first WHERE clause requires
`timestamp >= 200`; with `begin = 100, end = None` it raises `TypeError`.
The datetime path uses `timestamp(begin)` as documented. -/
theorem c5_first_query_lower_bound_uses_end :
    MySqlDriver.firstWhere 7 (some (.ts 100)) (some (.ts 200)) =
      .ok "channel_id = 7 AND timestamp < 200 AND timestamp >= 200" ∧
    MySqlDriver.firstWhere 7 (some (.ts 100)) none = .error .typeError ∧
    MySqlDriver.firstWhere 7 (some (.dt 100)) (some (.ts 200)) =
      .ok "channel_id = 7 AND timestamp < 200 AND timestamp >= 100" :=
  ⟨rfl, rfl, rfl⟩

/-- Grid index `i = t1 // sampling_interval` computed by the steady loop of
`DeviceReader.__aiter__` (Python floor division). -/
def DeviceReader.gridIndex (interval t : Int) : Int := Int.fdiv t interval

/-- Grid time `t = i * sampling_interval` at which the interpolated value is
emitted. -/
def DeviceReader.gridTime (interval t : Int) : Int :=
  DeviceReader.gridIndex interval t * interval

/-- `DeviceReader.get_value(t)` with two buffered samples `(t0, y0)` and
`(t1, y1)` (src/vzclient/asyncio/device_reader.py 158-185): linear
interpolation `(1 - w) * y0 + w * y1` with `w = (t - t0) / (t1 - t0)`. -/
def DeviceReader.getValue (t0 t1 : Int) (y0 y1 : ℚ) (t : Int) : ℚ :=
  let w : ℚ := ((t - t0 : Int) : ℚ) / ((t1 - t0 : Int) : ℚ)
  (1 - w) * y0 + w * y1

/-- The samples emitted by the steady loop of `DeviceReader.__aiter__` with
`interpolate = True`, as a function of the successful raw samples: the prime
phase consumes the first sample without emitting, and every further sample
`(t1, y1)` (with predecessor `(t0, y0)`) yields
`get_value(i * interval)` with `i = t1 // interval`. -/
def DeviceReader.emitted (interval : Int) (samples : List (Int × ℚ)) :
    List (Int × ℚ) :=
  (samples.zip samples.tail).map (fun pq =>
    (DeviceReader.gridTime interval pq.2.1,
     DeviceReader.getValue pq.1.1 pq.2.1 pq.1.2 pq.2.2
       (DeviceReader.gridTime interval pq.2.1)))

theorem DeviceReader.emitted_cons_cons (interval : Int) (a b : Int × ℚ)
    (l : List (Int × ℚ)) :
    DeviceReader.emitted interval (a :: b :: l) =
      (DeviceReader.gridTime interval b.1,
       DeviceReader.getValue a.1 b.1 a.2 b.2 (DeviceReader.gridTime interval b.1)) ::
        DeviceReader.emitted interval (b :: l) := rfl

theorem rel_of_mem_zip_tail {α : Type} {r : α → α → Prop} :
    ∀ {l : List α} {p : α × α}, List.Chain' r l → p ∈ l.zip l.tail → r p.1 p.2 := by
  intro l
  induction l with
  | nil => intro p _ hp; simp at hp
  | cons a l ih =>
    intro p hc hp
    cases l with
    | nil => simp at hp
    | cons b l' =>
      rw [List.chain'_cons] at hc
      simp only [List.tail_cons, List.zip_cons_cons, List.mem_cons] at hp
      rcases hp with rfl | hp
      · exact hc.1
      · exact ih hc.2 hp

theorem DeviceReader.emitted_chain_of_adjacent (interval : Int)
    (samples : List (Int × ℚ))
    (h : List.Chain' (fun p q : Int × ℚ =>
      DeviceReader.gridIndex interval q.1 = DeviceReader.gridIndex interval p.1 + 1)
      samples) :
    List.Chain' (fun a b : Int × ℚ => b.1 - a.1 = interval)
      (DeviceReader.emitted interval samples) := by
  induction samples with
  | nil => simp [DeviceReader.emitted]
  | cons a tail ih =>
    cases tail with
    | nil => simp [DeviceReader.emitted]
    | cons b l =>
      rw [List.chain'_cons] at h
      rw [DeviceReader.emitted_cons_cons]
      rw [List.chain'_cons']
      refine ⟨?_, ih h.2⟩
      intro y hy
      cases l with
      | nil => simp [DeviceReader.emitted] at hy
      | cons c l' =>
        rw [DeviceReader.emitted_cons_cons] at hy
        simp only [List.head?_cons, Option.mem_def, Option.some.injEq] at hy
        subst hy
        have hbc : DeviceReader.gridIndex interval c.1 =
            DeviceReader.gridIndex interval b.1 + 1 := (List.chain'_cons.mp h.2).1
        simp only [DeviceReader.gridTime, hbc]
        ring

/-- C7 (amended): with interpolation on, every emitted timestamp is an
integer multiple of `sampling_interval`; *provided consecutive raw samples
land in consecutive grid cells*, consecutive emitted timestamps differ by
exactly `sampling_interval`; and the value emitted at grid time `t*`, namely
`(1 - w) * v0 + w * v1` with `w = (t* - t0) / (t1 - t0)`, lies within
`[min(v0, v1), max(v0, v1)]` whenever `t0 ≤ t* ≤ t1`. -/
theorem c7_interpolated_emissions (interval : Int) (samples : List (Int × ℚ))
    (hL : 0 < interval)
    (hmono : List.Chain' (fun p q : Int × ℚ => p.1 < q.1) samples) :
    (∀ p ∈ DeviceReader.emitted interval samples, interval ∣ p.1) ∧
    (List.Chain' (fun p q : Int × ℚ =>
        DeviceReader.gridIndex interval q.1 = DeviceReader.gridIndex interval p.1 + 1)
        samples →
      List.Chain' (fun a b : Int × ℚ => b.1 - a.1 = interval)
        (DeviceReader.emitted interval samples)) ∧
    (∀ pq ∈ samples.zip samples.tail,
      pq.1.1 ≤ DeviceReader.gridTime interval pq.2.1 →
      DeviceReader.gridTime interval pq.2.1 ≤ pq.2.1 →
      min pq.1.2 pq.2.2 ≤
          DeviceReader.getValue pq.1.1 pq.2.1 pq.1.2 pq.2.2
            (DeviceReader.gridTime interval pq.2.1) ∧
        DeviceReader.getValue pq.1.1 pq.2.1 pq.1.2 pq.2.2
            (DeviceReader.gridTime interval pq.2.1) ≤
          max pq.1.2 pq.2.2) := by
  refine ⟨?_, DeviceReader.emitted_chain_of_adjacent interval samples, ?_⟩
  · intro p hp
    simp only [DeviceReader.emitted, List.mem_map] at hp
    obtain ⟨pq, _, rfl⟩ := hp
    exact Dvd.intro_left _ rfl
  · intro pq hmem ht0 ht1
    have hlt : pq.1.1 < pq.2.1 := rel_of_mem_zip_tail hmono hmem
    set t0 := pq.1.1
    set t1 := pq.2.1
    set y0 := pq.1.2
    set y1 := pq.2.2
    set t := DeviceReader.gridTime interval t1 with htdef
    have hden : (0 : ℚ) < ((t1 - t0 : Int) : ℚ) := by
      exact_mod_cast Int.sub_pos.mpr hlt
    have hnum0 : (0 : ℚ) ≤ ((t - t0 : Int) : ℚ) := by
      exact_mod_cast Int.sub_nonneg.mpr ht0
    have hnum1 : ((t - t0 : Int) : ℚ) ≤ ((t1 - t0 : Int) : ℚ) := by
      exact_mod_cast Int.sub_le_sub_right ht1 t0
    have hw0 : (0 : ℚ) ≤ ((t - t0 : Int) : ℚ) / ((t1 - t0 : Int) : ℚ) :=
      div_nonneg hnum0 (le_of_lt hden)
    have hw1 : ((t - t0 : Int) : ℚ) / ((t1 - t0 : Int) : ℚ) ≤ 1 :=
      (div_le_one hden).mpr hnum1
    simp only [DeviceReader.getValue]
    set w : ℚ := ((t - t0 : Int) : ℚ) / ((t1 - t0 : Int) : ℚ)
    rcases le_total y0 y1 with hy | hy
    · rw [min_eq_left hy, max_eq_right hy]
      constructor
      · nlinarith [mul_nonneg hw0 (sub_nonneg.mpr hy)]
      · nlinarith [mul_nonneg (sub_nonneg.mpr hw1) (sub_nonneg.mpr hy)]
    · rw [min_eq_right hy, max_eq_left hy]
      constructor
      · nlinarith [mul_nonneg (sub_nonneg.mpr hw1) (sub_nonneg.mpr hy)]
      · nlinarith [mul_nonneg hw0 (sub_nonneg.mpr hy)]

/-- Witness for C7: interval 500, raw samples (0, 0) and (600, 1). -/
theorem c7_witness :
    ((0 : Int) < 500) ∧
    (∀ p ∈ DeviceReader.emitted 500 [((0 : Int), (0 : ℚ)), (600, 1)],
      (500 : Int) ∣ p.1) :=
  ⟨by decide,
   (c7_interpolated_emissions 500 [((0 : Int), (0 : ℚ)), (600, 1)] (by decide)
     (by norm_num [List.chain'_cons])).1⟩

/-- C7 counterexample: the claim says consecutive emitted timestamps always
differ by exactly `sampling_interval`.  With interval 500 and raw samples at
100, 600 and 1700 (strictly increasing), the emitted timestamps are 500 and
1500, which differ by 1000. -/
theorem c7_counterexample :
    ((0 : Int) < 500) ∧
    List.Chain' (fun p q : Int × ℚ => p.1 < q.1)
      [((100 : Int), (0 : ℚ)), (600, 1), (1700, 2)] ∧
    (DeviceReader.emitted 500 [((100 : Int), (0 : ℚ)), (600, 1), (1700, 2)]).map
        Prod.fst = [500, 1500] ∧
    ¬ ((1500 : Int) - 500 = 500) := by
  refine ⟨by decide, by norm_num [List.chain'_cons], ?_, by decide⟩
  decide

/-- A Python value as it appears in a YAML configuration: strings and
integers as scalars, plus nested dictionaries (assoc lists in insertion
order, keys unique). -/
inductive PyVal where
  | str (s : String)
  | int (n : Int)
  | dict (entries : List (String × PyVal))

/-- `isinstance(v, dict)`. -/
def PyVal.isDict : PyVal → Bool
  | .dict _ => true
  | _ => false

mutual
/-- Size measure used for termination of the section-wise merge. -/
def PyVal.size : PyVal → Nat
  | .str _ => 0
  | .int _ => 0
  | .dict l => 1 + PyVal.sizeL l
def PyVal.sizeL : List (String × PyVal) → Nat
  | [] => 0
  | e :: t => 1 + PyVal.size e.2 + PyVal.sizeL t
end

/-- `d[k]` lookup on a Python dict (first entry with the key). -/
def dget (l : List (String × PyVal)) (k : String) : Option PyVal :=
  (l.find? (fun e => e.1 == k)).map Prod.snd

/-- `d.get(k, dict())`. -/
def pyGetD (l : List (String × PyVal)) (k : String) : PyVal :=
  (dget l k).getD (.dict [])

/-- `d[k] = v` on a Python dict: overwrite in place if present, else append. -/
def dsetOne (l : List (String × PyVal)) (a : String) (v : PyVal) :
    List (String × PyVal) :=
  if (l.find? (fun e => e.1 == a)).isSome then
    l.map (fun e => if e.1 == a then (a, v) else e)
  else
    l ++ [(a, v)]

/-- `d.update(items)`: item-wise `d[k] = v`. -/
def dupdate (l items : List (String × PyVal)) : List (String × PyVal) :=
  items.foldl (fun acc e => dsetOne acc e.1 e.2) l

/-- Key list with duplicates removed (model of a Python `set` of keys; set
iteration order is unspecified, so any membership-preserving order is a
faithful model). -/
def dedupKeys : List String → List String
  | [] => []
  | x :: xs => if x ∈ xs then dedupKeys xs else x :: dedupKeys xs

theorem mem_dedupKeys {k : String} : ∀ {l : List String}, k ∈ dedupKeys l ↔ k ∈ l := by
  intro l
  induction l with
  | nil => simp [dedupKeys]
  | cons x xs ih =>
    by_cases hx : x ∈ xs
    · simp only [dedupKeys, if_pos hx, ih, List.mem_cons]
      constructor
      · exact Or.inr
      · rintro (rfl | h)
        · exact hx
        · exact h
    · simp [dedupKeys, if_neg hx, ih]

theorem nodup_dedupKeys : ∀ (l : List String), (dedupKeys l).Nodup := by
  intro l
  induction l with
  | nil => simp [dedupKeys]
  | cons x xs ih =>
    by_cases hx : x ∈ xs
    · simpa only [dedupKeys, if_pos hx] using ih
    · simp only [dedupKeys, if_neg hx, List.nodup_cons]
      refine ⟨?_, ih⟩
      rw [mem_dedupKeys]
      exact hx

/-- `ToolBase.get_sections` (src/vzclient/tool_base.py 160-173): the keys of
a dictionary whose values are dictionaries. -/
def ToolBase.getSections (l : List (String × PyVal)) : List String :=
  dedupKeys ((l.filter (fun e => e.2.isDict)).map Prod.fst)

theorem dget_size {l : List (String × PyVal)} {s : String} {v : PyVal} :
    dget l s = some v → 1 + PyVal.size v ≤ PyVal.sizeL l := by
  induction l with
  | nil => intro h; simp [dget] at h
  | cons e t ih =>
    intro h
    simp only [dget, List.find?] at h
    cases he : (e.1 == s) with
    | true =>
      rw [he] at h
      have hv : e.2 = v := by simpa using h
      simp only [PyVal.sizeL]
      rw [← hv]
      omega
    | false =>
      rw [he] at h
      simp only [cond_false] at h
      have := ih h
      simp only [PyVal.sizeL]
      omega

theorem size_pyGetD (l : List (String × PyVal)) (s : String) :
    PyVal.size (pyGetD l s) ≤ 1 + PyVal.sizeL l := by
  unfold pyGetD
  cases hd : dget l s with
  | none => simp [PyVal.size, PyVal.sizeL]
  | some v =>
    have := dget_size hd
    simp only [Option.getD_some]
    omega

theorem dget_isSome_of_mem_getSections {l : List (String × PyVal)} {s : String}
    (h : s ∈ ToolBase.getSections l) : ∃ v, dget l s = some v := by
  unfold ToolBase.getSections at h
  rw [mem_dedupKeys] at h
  simp only [List.mem_map] at h
  obtain ⟨e, he, rfl⟩ := h
  have hmem : e ∈ l := List.mem_of_mem_filter he
  have : (l.find? (fun x => x.1 == e.1)).isSome := by
    rw [List.find?_isSome]
    exact ⟨e, hmem, by simp⟩
  cases hfind : l.find? (fun x => x.1 == e.1) with
  | none => rw [hfind] at this; simp at this
  | some w => exact ⟨w.2, by simp [dget, hfind]⟩

theorem size_pyGetD_of_mem_getSections {l : List (String × PyVal)} {s : String}
    (h : s ∈ ToolBase.getSections l) :
    PyVal.size (pyGetD l s) + 1 ≤ PyVal.sizeL l := by
  obtain ⟨v, hv⟩ := dget_isSome_of_mem_getSections h
  have := dget_size hv
  simp only [pyGetD, hv, Option.getD_some]
  omega

mutual
/-- `ToolBase.unify_sectionwise(options, default)`
(src/vzclient/tool_base.py 175-206): collect the section keys of both
inputs, merge each section recursively, then add the non-section items of
`default` and finally those of `options` (so user scalars win).  Non-dict
arguments make the Python code fail with `AttributeError` (`.items()` on a
non-dict). -/
def ToolBase.unify : PyVal → PyVal → Except PyError PyVal
  | .dict o, .dict d =>
    let sections := dedupKeys (ToolBase.getSections o ++ ToolBase.getSections d)
    match ToolBase.unifySections o d sections
        (fun s hs => by
          rw [mem_dedupKeys] at hs
          exact List.mem_append.mp hs) with
    | .error e => .error e
    | .ok secPart =>
      let retval1 := dupdate secPart (d.filter (fun e => !(sections.contains e.1)))
      let retval2 := dupdate retval1 (o.filter (fun e => !(sections.contains e.1)))
      .ok (.dict retval2)
  | .str _, _ => .error .attributeError
  | .int _, _ => .error .attributeError
  | .dict _, .str _ => .error .attributeError
  | .dict _, .int _ => .error .attributeError
termination_by a b => (PyVal.size a + PyVal.size b, 0)
decreasing_by
  apply Prod.Lex.left
  simp only [PyVal.size]
  omega

/-- The `for section in sections` loop of `unify_sectionwise`:
`retval[section] = unify_sectionwise(options.get(section, dict()),
default.get(section, dict()))`. -/
def ToolBase.unifySections (o d : List (String × PyVal)) :
    (ss : List String) →
    (∀ s ∈ ss, s ∈ ToolBase.getSections o ∨ s ∈ ToolBase.getSections d) →
    Except PyError (List (String × PyVal))
  | [], _ => .ok []
  | s :: rest, h =>
    match ToolBase.unify (pyGetD o s) (pyGetD d s) with
    | .error e => .error e
    | .ok v =>
      match ToolBase.unifySections o d rest
          (fun x hx => h x (List.mem_cons_of_mem s hx)) with
      | .error e => .error e
      | .ok tail => .ok ((s, v) :: tail)
termination_by ss h => (PyVal.sizeL o + PyVal.sizeL d, ss.length)
decreasing_by
  · rcases h s (List.mem_cons_self s rest) with hs | hs
    · have h1 := size_pyGetD_of_mem_getSections hs
      have h2 := size_pyGetD d s
      rcases Nat.lt_or_ge (PyVal.size (pyGetD o s) + PyVal.size (pyGetD d s))
          (PyVal.sizeL o + PyVal.sizeL d) with hlt | hge
      · exact Prod.Lex.left _ _ hlt
      · have heq : PyVal.size (pyGetD o s) + PyVal.size (pyGetD d s) =
            PyVal.sizeL o + PyVal.sizeL d := by omega
        rw [heq]
        exact Prod.Lex.right _ (by simp [List.length_cons])
    · have h1 := size_pyGetD_of_mem_getSections hs
      have h2 := size_pyGetD o s
      rcases Nat.lt_or_ge (PyVal.size (pyGetD o s) + PyVal.size (pyGetD d s))
          (PyVal.sizeL o + PyVal.sizeL d) with hlt | hge
      · exact Prod.Lex.left _ _ hlt
      · have heq : PyVal.size (pyGetD o s) + PyVal.size (pyGetD d s) =
            PyVal.sizeL o + PyVal.sizeL d := by omega
        rw [heq]
        exact Prod.Lex.right _ (by simp [List.length_cons])
  · exact Prod.Lex.right _ (by simp [List.length_cons])
end

theorem dget_none_of_not_mem_keys {k : String} :
    ∀ {l : List (String × PyVal)}, k ∉ l.map Prod.fst → dget l k = none := by
  intro l
  induction l with
  | nil => intro _; rfl
  | cons e t ih =>
    intro hk
    simp only [List.map_cons, List.mem_cons] at hk
    push_neg at hk
    have he : (e.1 == k) = false := by
      simp only [beq_eq_false_iff_ne, ne_eq]
      intro h
      exact hk.1 h.symm
    simp only [dget, List.find?, he, cond_false]
    exact ih hk.2

theorem dget_mem {l : List (String × PyVal)} {k : String} {v : PyVal}
    (h : dget l k = some v) : (k, v) ∈ l := by
  unfold dget at h
  cases hf : l.find? (fun e => e.1 == k) with
  | none => rw [hf] at h; simp at h
  | some e =>
    rw [hf] at h
    have hv : e.2 = v := by simpa using h
    have hmem := List.mem_of_find?_eq_some hf
    have hkey : e.1 = k := by simpa [beq_iff_eq] using List.find?_some hf
    have : e = (k, v) := by
      cases e
      simp only at hkey hv
      rw [hkey, hv]
    rw [← this]
    exact hmem

theorem dget_eq_of_mem_nodup {l : List (String × PyVal)} {k : String} {v : PyVal}
    (hno : (l.map Prod.fst).Nodup) (hmem : (k, v) ∈ l) : dget l k = some v := by
  induction l with
  | nil => simp at hmem
  | cons e t ih =>
    simp only [List.map_cons, List.nodup_cons] at hno
    rcases List.mem_cons.mp hmem with rfl | hmem'
    · simp [dget, List.find?]
    · have hk : e.1 ≠ k := by
        intro h
        apply hno.1
        rw [h]
        exact List.mem_map.mpr ⟨(k, v), hmem', rfl⟩
      have he : (e.1 == k) = false := by simpa [beq_eq_false_iff_ne] using hk
      simp only [dget, List.find?, he, cond_false]
      exact ih hno.2 hmem'

theorem dget_cons (e : String × PyVal) (t : List (String × PyVal)) (k : String) :
    dget (e :: t) k = if e.1 == k then some e.2 else dget t k := by
  unfold dget
  cases he : (e.1 == k) with
  | true => simp [List.find?, he]
  | false => simp [List.find?, he]

theorem dget_map_ne {a k : String} {v : PyVal} (hka : k ≠ a) :
    ∀ l : List (String × PyVal),
    dget (l.map (fun e => if e.1 == a then (a, v) else e)) k = dget l k := by
  intro l
  induction l with
  | nil => rfl
  | cons e t ih =>
    rw [List.map_cons]
    by_cases hea : (e.1 == a) = true
    · have hek : e.1 = a := by simpa using hea
      have h1 : ¬ (((a, v) : String × PyVal).1 == k) = true := by
        simp only [beq_iff_eq]
        intro h
        exact hka h.symm
      have h2 : ¬ (e.1 == k) = true := by
        simp only [beq_iff_eq, hek]
        intro h
        exact hka h.symm
      rw [if_pos hea, dget_cons, dget_cons, if_neg h1, if_neg h2]
      exact ih
    · rw [if_neg hea, dget_cons, dget_cons]
      by_cases he : (e.1 == k) = true
      · rw [if_pos he, if_pos he]
      · rw [if_neg he, if_neg he]
        exact ih

theorem dget_map_eq {a : String} {v : PyVal} :
    ∀ l : List (String × PyVal),
    (l.find? (fun e => e.1 == a)).isSome = true →
    dget (l.map (fun e => if e.1 == a then (a, v) else e)) a = some v := by
  intro l
  induction l with
  | nil => intro h; simp [List.find?] at h
  | cons e t ih =>
    intro h
    rw [List.map_cons]
    by_cases hea : (e.1 == a) = true
    · rw [if_pos hea, dget_cons, if_pos (by simp)]
    · have hea' : (e.1 == a) = false := by
        cases hb : (e.1 == a) with
        | true => exact absurd hb hea
        | false => rfl
      simp only [List.find?, hea', cond_false] at h
      rw [if_neg hea, dget_cons, if_neg hea]
      exact ih h

theorem dget_append_of_none {l₁ l₂ : List (String × PyVal)} {k : String}
    (h : dget l₁ k = none) : dget (l₁ ++ l₂) k = dget l₂ k := by
  induction l₁ with
  | nil => simp
  | cons e t ih =>
    cases he : (e.1 == k) with
    | true => simp [dget, List.find?, he] at h
    | false =>
      simp only [dget, List.find?, he, cond_false] at h ⊢
      exact ih h

theorem dget_dsetOne (l : List (String × PyVal)) (a : String) (v : PyVal)
    (k : String) :
    dget (dsetOne l a v) k = if k = a then some v else dget l k := by
  unfold dsetOne
  by_cases hp : (l.find? (fun e => e.1 == a)).isSome = true
  · rw [if_pos hp]
    by_cases hka : k = a
    · subst hka
      rw [if_pos rfl]
      exact dget_map_eq l hp
    · rw [if_neg hka]
      exact dget_map_ne hka l
  · rw [if_neg hp]
    have hnone : dget l a = none := by
      unfold dget
      cases hf : l.find? (fun e => e.1 == a) with
      | none => rfl
      | some w => rw [hf] at hp; simp at hp
    by_cases hka : k = a
    · subst hka
      rw [if_pos rfl, dget_append_of_none hnone]
      simp [dget, List.find?]
    · rw [if_neg hka]
      cases hd : dget l k with
      | none =>
        rw [dget_append_of_none hd]
        have : (a == k) = false := by
          simp only [beq_eq_false_iff_ne, ne_eq]
          intro h
          exact hka h.symm
        simp [dget, List.find?, this]
      | some w =>
        unfold dget at hd ⊢
        cases hf : l.find? (fun e => e.1 == k) with
        | none => rw [hf] at hd; simp at hd
        | some e =>
          rw [hf] at hd
          rw [List.find?_append, hf]
          simpa using hd

theorem dget_dupdate_not_mem {k : String} :
    ∀ (items l : List (String × PyVal)), k ∉ items.map Prod.fst →
    dget (dupdate l items) k = dget l k := by
  intro items
  induction items with
  | nil => intro l _; rfl
  | cons e t ih =>
    intro l hk
    simp only [List.map_cons, List.mem_cons] at hk
    push_neg at hk
    show dget (dupdate (dsetOne l e.1 e.2) t) k = dget l k
    rw [ih (dsetOne l e.1 e.2) hk.2, dget_dsetOne, if_neg hk.1]

theorem dget_dupdate_mem {k : String} :
    ∀ (items l : List (String × PyVal)), (items.map Prod.fst).Nodup →
    k ∈ items.map Prod.fst →
    dget (dupdate l items) k = dget items k := by
  intro items
  induction items with
  | nil => intro l _ h; simp at h
  | cons e t ih =>
    intro l hno hk
    simp only [List.map_cons, List.nodup_cons] at hno
    show dget (dupdate (dsetOne l e.1 e.2) t) k = dget (e :: t) k
    by_cases hke : k = e.1
    · subst hke
      rw [dget_dupdate_not_mem t _ hno.1, dget_dsetOne, if_pos rfl]
      simp [dget, List.find?]
    · simp only [List.map_cons, List.mem_cons] at hk
      rcases hk with h | h
      · exact absurd h hke
      · rw [ih (dsetOne l e.1 e.2) hno.2 h]
        have he : (e.1 == k) = false := by
          simp only [beq_eq_false_iff_ne, ne_eq]
          intro hh
          exact hke hh.symm
        simp [dget, List.find?, he]

theorem dget_filter_of_nodup {l : List (String × PyVal)} {k : String} {v : PyVal}
    (p : String × PyVal → Bool)
    (hno : (l.map Prod.fst).Nodup) (h : dget l k = some v) :
    dget (l.filter p) k = if p (k, v) then some v else none := by
  induction l with
  | nil => simp [dget] at h
  | cons e t ih =>
    simp only [List.map_cons, List.nodup_cons] at hno
    cases he : (e.1 == k) with
    | true =>
      have hek : e.1 = k := by simpa [beq_iff_eq] using he
      have hv : e.2 = v := by
        simp only [dget, List.find?, he, cond_true] at h
        simpa using h
      have hkv : e = (k, v) := by
        cases e
        simp only at hek hv
        rw [hek, hv]
      have hknot : k ∉ t.map Prod.fst := by
        rw [← hek]
        exact hno.1
      cases hp : p e with
      | true =>
        rw [hkv] at hp ⊢
        rw [List.filter_cons_of_pos (by simp [hp]), dget_cons, if_pos (by simp), hp]
        simp
      | false =>
        rw [hkv] at hp ⊢
        rw [List.filter_cons_of_neg (by simp [hp]), hp]
        simp only [Bool.false_eq_true, if_false]
        apply dget_none_of_not_mem_keys
        intro hmem
        apply hknot
        obtain ⟨e', he', rfl⟩ := List.mem_map.mp hmem
        exact List.mem_map.mpr ⟨e', List.mem_of_mem_filter he', rfl⟩
    | false =>
      have ht : dget t k = some v := by
        simpa only [dget, List.find?, he, cond_false] using h
      have := ih hno.2 ht
      cases hp : p e with
      | true =>
        rw [List.filter_cons_of_pos (by simp [hp]), dget_cons, if_neg (by simp [he])]
        exact this
      | false =>
        rw [List.filter_cons_of_neg (by simp [hp])]
        exact this

theorem ToolBase.unifySections_ok (o d : List (String × PyVal)) :
    ∀ (ss : List String)
      (hss : ∀ s ∈ ss, s ∈ ToolBase.getSections o ∨ s ∈ ToolBase.getSections d)
      (lst : List (String × PyVal)),
    ToolBase.unifySections o d ss hss = .ok lst →
    lst.map Prod.fst = ss ∧
    ∀ s ∈ ss, ∃ v, dget lst s = some v ∧
      ToolBase.unify (pyGetD o s) (pyGetD d s) = .ok v := by
  intro ss
  induction ss with
  | nil =>
    intro hss lst h
    simp only [ToolBase.unifySections] at h
    have : lst = [] := by
      cases h
      rfl
    subst this
    exact ⟨rfl, by simp⟩
  | cons s rest ih =>
    intro hss lst h
    simp only [ToolBase.unifySections] at h
    split at h
    · exact absurd h (by simp)
    · rename_i v hu
      split at h
      · exact absurd h (by simp)
      · rename_i tail hr
        have hlst : lst = (s, v) :: tail := by
          cases h
          rfl
        subst hlst
        obtain ⟨hmap, hlook⟩ := ih _ tail hr
        refine ⟨by simp [hmap], ?_⟩
        intro x hx
        by_cases hxs : x = s
        · subst hxs
          refine ⟨v, ?_, hu⟩
          rw [dget_cons, if_pos (by simp)]
        · rcases List.mem_cons.mp hx with rfl | hx'
          · exact absurd rfl hxs
          · obtain ⟨w, hw, huw⟩ := hlook x hx'
            refine ⟨w, ?_, huw⟩
            rw [dget_cons, if_neg (by simp [beq_iff_eq]; exact fun hh => hxs hh.symm)]
            exact hw

/-- The spec's config-layering example evaluated on the embedding: defaults
`{return_value: 3, other_options: {key1: 1, key2: 2, key3: "val3"}}` merged
with user config `{return_value: 0, other_options: {key1: 2}}`. -/
theorem ToolBase.unify_example :
    ToolBase.unify
      (.dict [("return_value", .int 0), ("other_options", .dict [("key1", .int 2)])])
      (.dict [("return_value", .int 3),
              ("other_options", .dict [("key1", .int 1), ("key2", .int 2),
                                       ("key3", .str "val3")])]) =
      .ok (.dict [("other_options", .dict [("key1", .int 2), ("key2", .int 2),
                                           ("key3", .str "val3")]),
                  ("return_value", .int 0)]) := by
  simp [ToolBase.unify, ToolBase.unifySections, ToolBase.getSections, dedupKeys,
        dget, pyGetD, dsetOne, dupdate, PyVal.isDict, List.find?, List.filter,
        List.contains, List.elem]

/-- C8: `ToolBase.unify_sectionwise` merges section-wise: every key that is
a section (maps to a dictionary) in either input is merged recursively, and
every scalar key of the user configuration that is not a section of the
defaults overrides the defaults. -/
theorem c8_unify_sectionwise (o d r : List (String × PyVal))
    (hno : (o.map Prod.fst).Nodup)
    (h : ToolBase.unify (.dict o) (.dict d) = .ok (.dict r)) :
    (∀ k, k ∈ ToolBase.getSections o ∨ k ∈ ToolBase.getSections d →
      ∃ v, dget r k = some v ∧
        ToolBase.unify (pyGetD o k) (pyGetD d k) = .ok v) ∧
    (∀ k v, dget o k = some v → v.isDict = false → k ∉ ToolBase.getSections d →
      dget r k = some v) ∧
    ToolBase.unify
      (.dict [("return_value", .int 0), ("other_options", .dict [("key1", .int 2)])])
      (.dict [("return_value", .int 3),
              ("other_options", .dict [("key1", .int 1), ("key2", .int 2),
                                       ("key3", .str "val3")])]) =
      .ok (.dict [("other_options", .dict [("key1", .int 2), ("key2", .int 2),
                                           ("key3", .str "val3")]),
                  ("return_value", .int 0)]) := by
  simp only [ToolBase.unify] at h
  split at h
  · exact absurd h (by simp)
  · rename_i secPart heq
    have hr : dupdate
        (dupdate secPart
          (d.filter (fun e =>
            !((dedupKeys (ToolBase.getSections o ++ ToolBase.getSections d)).contains e.1))))
        (o.filter (fun e =>
          !((dedupKeys (ToolBase.getSections o ++ ToolBase.getSections d)).contains e.1))) = r := by
      cases h
      rfl
    refine ⟨?_, ?_, ToolBase.unify_example⟩
    · intro k hk
      have hksec : k ∈ dedupKeys (ToolBase.getSections o ++ ToolBase.getSections d) :=
        mem_dedupKeys.mpr (List.mem_append.mpr hk)
      obtain ⟨hmap, hlook⟩ := ToolBase.unifySections_ok o d _ _ secPart heq
      obtain ⟨v, hv, hu⟩ := hlook k hksec
      refine ⟨v, ?_, hu⟩
      rw [← hr]
      have hnotI : ∀ l : List (String × PyVal),
          k ∉ (l.filter (fun e =>
            !((dedupKeys (ToolBase.getSections o ++ ToolBase.getSections d)).contains e.1))).map
              Prod.fst := by
        intro l hm
        obtain ⟨e, he, rfl⟩ := List.mem_map.mp hm
        have hfe := (List.mem_filter.mp he).2
        have hmm : (dedupKeys (ToolBase.getSections o ++ ToolBase.getSections d)).contains e.1
            = true := List.elem_eq_true_of_mem hksec
        rw [hmm] at hfe
        simp at hfe
      rw [dget_dupdate_not_mem _ _ (hnotI o), dget_dupdate_not_mem _ _ (hnotI d)]
      exact hv
    · intro k v hv hdict hknotd
      have hentry : (k, v) ∈ o := dget_mem hv
      have hknoto : k ∉ ToolBase.getSections o := by
        intro hk
        unfold ToolBase.getSections at hk
        rw [mem_dedupKeys] at hk
        obtain ⟨e, he, hek⟩ := List.mem_map.mp hk
        have he1 : e ∈ o := List.mem_of_mem_filter he
        have he2 : e.2.isDict = true := by
          have := (List.mem_filter.mp he).2
          simpa using this
        have : dget o k = some e.2 := by
          apply dget_eq_of_mem_nodup hno
          have : e = (k, e.2) := by
            cases e
            simp only at hek ⊢
            rw [hek]
          rw [← this]
          exact he1
        rw [hv] at this
        have hve : v = e.2 := by
          simpa using this
        rw [hve, he2] at hdict
        exact absurd hdict (by simp)
      have hksec : k ∉ dedupKeys (ToolBase.getSections o ++ ToolBase.getSections d) := by
        rw [mem_dedupKeys]
        intro hk
        rcases List.mem_append.mp hk with hk' | hk'
        · exact hknoto hk'
        · exact hknotd hk'
      have hcont : (dedupKeys (ToolBase.getSections o ++ ToolBase.getSections d)).contains k
          = false := by
        cases hc : (dedupKeys (ToolBase.getSections o ++ ToolBase.getSections d)).contains k with
        | false => rfl
        | true => exact absurd (List.mem_of_elem_eq_true hc) hksec
      have hmemI : (k, v) ∈ o.filter (fun e =>
          !((dedupKeys (ToolBase.getSections o ++ ToolBase.getSections d)).contains e.1)) := by
        apply List.mem_filter.mpr
        refine ⟨hentry, ?_⟩
        simpa using hksec
      have hnoI : ((o.filter (fun e =>
          !((dedupKeys (ToolBase.getSections o ++ ToolBase.getSections d)).contains e.1))).map
            Prod.fst).Nodup :=
        hno.sublist (List.Sublist.map Prod.fst (List.filter_sublist o))
      have hkmemI : k ∈ (o.filter (fun e =>
          !((dedupKeys (ToolBase.getSections o ++ ToolBase.getSections d)).contains e.1))).map
            Prod.fst :=
        List.mem_map.mpr ⟨(k, v), hmemI, rfl⟩
      rw [← hr, dget_dupdate_mem _ _ hnoI hkmemI]
      rw [dget_filter_of_nodup _ hno hv]
      simp [hksec]

/-- Witness for C8 at the spec's example: the scalar user key
`return_value` overrides the default, via the theorem. -/
theorem c8_witness :
    ((([("return_value", PyVal.int 0),
        ("other_options", PyVal.dict [("key1", PyVal.int 2)])] :
        List (String × PyVal)).map Prod.fst).Nodup) ∧
    dget [("other_options", PyVal.dict [("key1", PyVal.int 2), ("key2", PyVal.int 2),
                                        ("key3", PyVal.str "val3")]),
          ("return_value", PyVal.int 0)] "return_value" = some (PyVal.int 0) :=
  ⟨by decide,
   (c8_unify_sectionwise
      [("return_value", PyVal.int 0),
       ("other_options", PyVal.dict [("key1", PyVal.int 2)])]
      [("return_value", PyVal.int 3),
       ("other_options", PyVal.dict [("key1", PyVal.int 1), ("key2", PyVal.int 2),
                                     ("key3", PyVal.str "val3")])]
      [("other_options", PyVal.dict [("key1", PyVal.int 2), ("key2", PyVal.int 2),
                                     ("key3", PyVal.str "val3")]),
       ("return_value", PyVal.int 0)]
      (by decide) ToolBase.unify_example).2.1
     "return_value" (PyVal.int 0) rfl rfl (by decide)⟩

/-- `aioinflux.serialization.common.escape` with one of the translation
tables below: every character in the table is prefixed with a backslash. -/
def escape (table : List Char) (s : String) : String :=
  String.mk (s.data.flatMap (fun c => if c ∈ table then ['\\', c] else [c]))

/-- `tag_escape` / `key_escape`: `,`, ` ` and `=` are escaped. -/
def tagEscape : List Char := [',', ' ', '=']

/-- `measurement_escape`: `,` and ` ` are escaped. -/
def measurementEscape : List Char := [',', ' ']

/-- Lookup in a Python dict of strings (`tags[key]`). -/
def sget (l : List (String × String)) (k : String) : Option String :=
  (l.find? (fun e => e.1 == k)).map Prod.snd

theorem sget_cons (e : String × String) (t : List (String × String)) (k : String) :
    sget (e :: t) k = if e.1 == k then some e.2 else sget t k := by
  unfold sget
  cases he : (e.1 == k) with
  | true => simp [List.find?, he]
  | false => simp [List.find?, he]

/-- `sorted(tags.keys())`: the order in which `get_prefix` emits the tag
keys. -/
def InfluxDriver.sortedTagKeys (tags : List (String × String)) : List String :=
  List.insertionSort (fun a b : String => a ≤ b) (tags.map Prod.fst)

/-- `InfluxDriver.get_prefix` (src/vzclient/asyncio/influx_driver.py
167-177): `f"{meas},{tag_str} {field}=".encode("utf-8")` with
`tag_str = ",".join(escaped_key + "=" + escaped_value for key in
sorted(tags.keys()))`. -/
def InfluxDriver.getPrefix (measurement : String) (tags : List (String × String))
    (field_name : String) : List UInt8 :=
  let tag_str := String.intercalate ","
    ((InfluxDriver.sortedTagKeys tags).map (fun k =>
      escape tagEscape k ++ "=" ++ escape tagEscape ((sget tags k).getD "")))
  (escape measurementEscape measurement ++ "," ++ tag_str ++ " " ++
    escape tagEscape field_name ++ "=").toUTF8.data.toList

/-- C9: the precomputed line-protocol prefix emits the tag keys in strictly
ascending lexicographic order, and two `get_prefix` calls with equal
measurement, equal tag mappings (same keys, same values — regardless of
dict insertion order) and equal field name return byte-identical
prefixes. -/
theorem c9_prefix_sorted_and_canonical (measurement field_name : String)
    (t1 t2 : List (String × String))
    (h1 : (t1.map Prod.fst).Nodup) (h2 : (t2.map Prod.fst).Nodup)
    (hmem : ∀ k, k ∈ t1.map Prod.fst ↔ k ∈ t2.map Prod.fst)
    (hval : ∀ k, sget t1 k = sget t2 k) :
    List.Pairwise (· < ·) (InfluxDriver.sortedTagKeys t1) ∧
    InfluxDriver.getPrefix measurement t1 field_name =
      InfluxDriver.getPrefix measurement t2 field_name := by
  have hsorted1 : (InfluxDriver.sortedTagKeys t1).Sorted (· ≤ ·) :=
    List.sorted_insertionSort _ _
  have hperm1 : List.Perm (InfluxDriver.sortedTagKeys t1) (t1.map Prod.fst) :=
    List.perm_insertionSort _ _
  have hnodup1 : (InfluxDriver.sortedTagKeys t1).Nodup := hperm1.nodup_iff.mpr h1
  constructor
  · exact List.Sorted.lt_of_le hsorted1 hnodup1
  · have hkeys : InfluxDriver.sortedTagKeys t1 = InfluxDriver.sortedTagKeys t2 := by
      have hp : List.Perm (InfluxDriver.sortedTagKeys t1) (InfluxDriver.sortedTagKeys t2) :=
        (hperm1.trans ((List.perm_ext_iff_of_nodup h1 h2).mpr hmem)).trans
          (List.perm_insertionSort _ _).symm
      exact List.eq_of_perm_of_sorted hp hsorted1 (List.sorted_insertionSort _ _)
    unfold InfluxDriver.getPrefix
    rw [hkeys]
    have hmapeq :
        (InfluxDriver.sortedTagKeys t2).map (fun k =>
          escape tagEscape k ++ "=" ++ escape tagEscape ((sget t1 k).getD "")) =
        (InfluxDriver.sortedTagKeys t2).map (fun k =>
          escape tagEscape k ++ "=" ++ escape tagEscape ((sget t2 k).getD "")) := by
      apply List.map_congr_left
      intro k _
      rw [hval k]
    rw [hmapeq]

/-- Witness for C9: two insertion orders of the same tag dict produce the
same prefix, with keys emitted in ascending order. -/
theorem c9_witness :
    (([("b", "2"), ("a", "1")] : List (String × String)).map Prod.fst).Nodup ∧
    List.Pairwise (· < ·) (InfluxDriver.sortedTagKeys [("b", "2"), ("a", "1")]) ∧
    InfluxDriver.getPrefix "power" [("b", "2"), ("a", "1")] "value" =
      InfluxDriver.getPrefix "power" [("a", "1"), ("b", "2")] "value" := by
  have hval : ∀ k, sget [("b", "2"), ("a", "1")] k = sget [("a", "1"), ("b", "2")] k := by
    intro k
    simp only [sget_cons]
    by_cases hb : ("b" == k) = true
    · by_cases ha : ("a" == k) = true
      · have e1 : "b" = k := by simpa using hb
        have e2 : "a" = k := by simpa using ha
        rw [← e2] at e1
        exact absurd e1 (by decide)
      · rw [if_pos hb, if_neg ha, if_pos hb]
    · by_cases ha : ("a" == k) = true
      · rw [if_neg hb, if_pos ha, if_pos ha]
      · rw [if_neg hb, if_neg ha, if_neg ha, if_neg hb]
  have h := c9_prefix_sorted_and_canonical "power" "value"
    [("b", "2"), ("a", "1")] [("a", "1"), ("b", "2")]
    (by decide) (by decide) (by intro k; simp [or_comm]) hval
  exact ⟨by decide, h.1, h.2⟩

/-- Token of the regex fragment produced by `DatabaseCopy.make_re`: a
literal character, `.` (any character except newline), or a starred atom. -/
inductive RTok where
  | lit (c : Char)
  | anyOne
  | starLit (c : Char)
  | starAny
deriving DecidableEq

/-- The wildcard translation of `DatabaseCopy.make_re`
(src/vzclient/asyncio/database_copy.py 326-338):
`pattern.replace("*", ".*").replace("?", ".")`, applied character-wise
(equivalent to the two sequential `str.replace` calls because the first
introduces no `?` and the second no `*`). -/
def trChar (c : Char) : List Char :=
  if c = '*' then ['.', '*']
  else if c = '?' then ['.']
  else [c]

def DatabaseCopy.translate (pattern : String) : String :=
  String.mk (pattern.data.flatMap trChar)

/-- `re.compile` on the fragment reachable from translated wildcard
patterns: `.` is the any-character atom, `*` stars the preceding atom, and
every other character is a literal atom.  Returns `none` where Python
`re.compile` would reject the expression (a `*` with nothing to repeat). -/
def reParseAux : List RTok → List Char → Option (List RTok)
  | acc, [] => some acc.reverse
  | acc, c :: rest =>
    if c = '*' then
      match acc with
      | .anyOne :: acc2 => reParseAux (.starAny :: acc2) rest
      | .lit ch :: acc2 => reParseAux (.starLit ch :: acc2) rest
      | _ => none
    else if c = '.' then reParseAux (.anyOne :: acc) rest
    else reParseAux (.lit c :: acc) rest

def reParse (cs : List Char) : Option (List RTok) := reParseAux [] cs

/-- Python `re`-style matching of a token list against the *start* of the
input (`re.Pattern.match`): no end anchor, so trailing input is allowed;
`.` does not match a newline. -/
def reAccept : List RTok → List Char → Bool
  | [], _ => true
  | .lit _ :: _, [] => false
  | .lit c :: ts, x :: xs => decide (x = c) && reAccept ts xs
  | .anyOne :: _, [] => false
  | .anyOne :: ts, x :: xs => decide (x ≠ '\n') && reAccept ts xs
  | .starLit _ :: ts, [] => reAccept ts []
  | .starLit c :: ts, x :: xs =>
      reAccept ts (x :: xs) || (decide (x = c) && reAccept (.starLit c :: ts) xs)
  | .starAny :: ts, [] => reAccept ts []
  | .starAny :: ts, x :: xs =>
      reAccept ts (x :: xs) || (decide (x ≠ '\n') && reAccept (.starAny :: ts) xs)
termination_by t s => (t.length, s.length)

/-- `DatabaseCopy.make_re(pattern)`: compile the translated pattern. -/
def DatabaseCopy.makeRe (pattern : String) : Option (List RTok) :=
  reParse (DatabaseCopy.translate pattern).data

/-- `self.make_re(pattern)` followed by `compiled.match(value) is not None`,
the matching used by `DatabaseCopy.exclude` and `DatabaseCopy.include` on
channel attribute values. -/
def DatabaseCopy.matchesAt (pattern value : String) : Option Bool :=
  (DatabaseCopy.makeRe pattern).map (fun r => reAccept r value.data)

/-- Wildcard-pattern matching against a prefix of the value, stated directly
on the original pattern: `*` matches any (newline-free) sequence, `?` and an
unescaped `.` match any single character except newline, every other
character matches itself, and trailing value characters are ignored. -/
def globMatch : List Char → List Char → Bool
  | [], _ => true
  | c :: ps, s =>
    if c = '*' then
      globMatch ps s ||
        (match s with
         | [] => false
         | x :: xs => decide (x ≠ '\n') && globMatch (c :: ps) xs)
    else
      match s with
      | [] => false
      | x :: xs =>
        (if c = '?' ∨ c = '.' then decide (x ≠ '\n') else decide (x = c)) &&
          globMatch ps xs
termination_by p s => (p.length, s.length)

/-- The single regex token each original pattern character compiles to. -/
def globTok (c : Char) : RTok :=
  if c = '*' then .starAny
  else if c = '?' ∨ c = '.' then .anyOne
  else .lit c

theorem reParseAux_translate :
    ∀ (cs : List Char) (acc : List RTok),
    reParseAux acc (cs.flatMap trChar) = some (acc.reverse ++ cs.map globTok) := by
  intro cs
  induction cs with
  | nil => intro acc; simp [reParseAux]
  | cons c rest ih =>
    intro acc
    rw [List.flatMap_cons]
    by_cases hs : c = '*'
    · subst hs
      have hstep : reParseAux acc (trChar '*' ++ rest.flatMap trChar) =
          reParseAux (.starAny :: acc) (rest.flatMap trChar) := rfl
      rw [hstep, ih (.starAny :: acc)]
      simp [globTok, List.reverse_cons, List.append_assoc]
    · by_cases hq : c = '?'
      · subst hq
        have hstep : reParseAux acc (trChar '?' ++ rest.flatMap trChar) =
            reParseAux (.anyOne :: acc) (rest.flatMap trChar) := rfl
        rw [hstep, ih (.anyOne :: acc)]
        simp [globTok, List.reverse_cons, List.append_assoc]
      · by_cases hd : c = '.'
        · subst hd
          have hstep : reParseAux acc (trChar '.' ++ rest.flatMap trChar) =
              reParseAux (.anyOne :: acc) (rest.flatMap trChar) := rfl
          rw [hstep, ih (.anyOne :: acc)]
          simp [globTok, List.reverse_cons, List.append_assoc]
        · have htr : trChar c = [c] := by
            unfold trChar
            rw [if_neg hs, if_neg hq]
          rw [htr, List.singleton_append]
          have hstep : reParseAux acc (c :: rest.flatMap trChar) =
              reParseAux (.lit c :: acc) (rest.flatMap trChar) := by
            rw [reParseAux.eq_def]
            simp only []
            rw [if_neg hs, if_neg hd]
          rw [hstep, ih (.lit c :: acc)]
          have hg : globTok c = .lit c := by
            unfold globTok
            rw [if_neg hs, if_neg (by rintro (h | h); exact hq h; exact hd h)]
          simp [hg, List.reverse_cons, List.append_assoc]

theorem DatabaseCopy.makeRe_eq (pattern : String) :
    DatabaseCopy.makeRe pattern = some (pattern.data.map globTok) := by
  unfold DatabaseCopy.makeRe DatabaseCopy.translate reParse
  have : (String.mk (pattern.data.flatMap trChar)).data = pattern.data.flatMap trChar := rfl
  rw [this, reParseAux_translate pattern.data []]
  rfl

theorem reAccept_globToks :
    ∀ (n : Nat) (p s : List Char), p.length + s.length = n →
    reAccept (p.map globTok) s = globMatch p s := by
  intro n
  induction n using Nat.strong_induction_on with
  | _ n ih =>
    intro p s hn
    match p with
    | [] => simp [reAccept, globMatch]
    | c :: ps =>
      rw [List.map_cons]
      by_cases hs : c = '*'
      · subst hs
        have hg : globTok '*' = RTok.starAny := rfl
        rw [hg]
        cases s with
        | nil =>
          simp only [reAccept, globMatch, if_pos rfl]
          rw [ih (ps.length + 0) (by simp at hn; omega) ps [] rfl]
          simp
        | cons x xs =>
          simp only [reAccept, globMatch, if_pos rfl]
          rw [ih (ps.length + (x :: xs).length) (by simp at hn ⊢; omega) ps (x :: xs) rfl]
          have : reAccept (RTok.starAny :: ps.map globTok) xs =
              reAccept (('*' :: ps).map globTok) xs := by rw [List.map_cons, hg]
          rw [this,
            ih (('*' :: ps).length + xs.length) (by simp at hn ⊢; omega) ('*' :: ps) xs rfl]
          simp
      · by_cases hq : c = '?' ∨ c = '.'
        · have hg : globTok c = RTok.anyOne := by
            unfold globTok
            rw [if_neg hs, if_pos hq]
          rw [hg]
          cases s with
          | nil =>
            simp only [reAccept, globMatch]
            rw [if_neg hs]
          | cons x xs =>
            simp only [reAccept, globMatch]
            rw [if_neg hs, if_pos hq,
              ih (ps.length + xs.length) (by simp at hn ⊢; omega) ps xs rfl]
        · have hg : globTok c = RTok.lit c := by
            unfold globTok
            rw [if_neg hs, if_neg hq]
          rw [hg]
          cases s with
          | nil =>
            simp only [reAccept, globMatch]
            rw [if_neg hs]
          | cons x xs =>
            simp only [reAccept, globMatch]
            rw [if_neg hs, if_neg hq,
              ih (ps.length + xs.length) (by simp at hn ⊢; omega) ps xs rfl]

theorem globMatch_of_prefix :
    ∀ (p v : List Char), (∀ c ∈ p, c ≠ '*' ∧ c ≠ '?') → p <+: v →
    globMatch p v = true := by
  intro p
  induction p with
  | nil => intro v _ _; rw [globMatch.eq_def]
  | cons c ps ih =>
    intro v hw hpre
    obtain ⟨t, rfl⟩ := hpre
    have hc := hw c (List.mem_cons_self c ps)
    rw [List.cons_append]
    simp only [globMatch]
    rw [if_neg hc.1]
    have hrest : globMatch ps (ps ++ t) = true :=
      ih (ps ++ t) (fun x hx => hw x (List.mem_cons_of_mem c hx)) ⟨t, rfl⟩
    by_cases hd : c = '.'
    · rw [if_pos (Or.inr hd), hrest]
      subst hd
      simp
    · rw [if_neg (by rintro (h | h); exact hc.2 h; exact hd h), hrest]
      simp

/-- C10: include/exclude matching in the bulk-copy planner
(`DatabaseCopy.make_re` + `re.Pattern.match`) is unanchored prefix matching:
on patterns built from ordinary characters plus the wildcards (no other
regex metacharacters, which `make_re` leaves unescaped), a pattern matches a
value exactly when the wildcard expansion (`*` → any sequence, `?` and `.` →
any single non-newline character) matches a prefix of the value; in
particular a pattern without wildcards matches every value that begins with
it, not only exact equals. -/
theorem c10_make_re_prefix_matching (pattern value : String)
    (hfrag : ∀ c ∈ pattern.data,
      c ∉ (['(', ')', '[', ']', '\x7b', '\x7d', '|', '+', '^', '$', '\\'] : List Char)) :
    DatabaseCopy.matchesAt pattern value =
      some (globMatch pattern.data value.data) ∧
    ((∀ c ∈ pattern.data, c ≠ '*' ∧ c ≠ '?') →
      pattern.data <+: value.data →
      DatabaseCopy.matchesAt pattern value = some true) := by
  have h1 : DatabaseCopy.matchesAt pattern value =
      some (globMatch pattern.data value.data) := by
    unfold DatabaseCopy.matchesAt
    rw [DatabaseCopy.makeRe_eq]
    simp only [Option.map_some']
    rw [reAccept_globToks (pattern.data.length + value.data.length)
      pattern.data value.data rfl]
  refine ⟨h1, ?_⟩
  intro hw hpre
  rw [h1, globMatch_of_prefix pattern.data value.data hw hpre]

/-- Witness for C10: the wildcard-free pattern `abc` matches the longer
value `abcdef`. -/
theorem c10_witness :
    (∀ c ∈ ("abc" : String).data,
      c ∉ (['(', ')', '[', ']', '\x7b', '\x7d', '|', '+', '^', '$', '\\'] : List Char)) ∧
    ("abc" : String).data <+: ("abcdef" : String).data ∧
    DatabaseCopy.matchesAt "abc" "abcdef" = some true ∧
    ("abc" : String) ≠ "abcdef" :=
  ⟨by decide, by decide,
   (c10_make_re_prefix_matching "abc" "abcdef" (by decide)).2 (by decide) (by decide),
   by decide⟩

/-- Compressor state (src/vzclient/compress.py): `(x0, y0)` is the last
emitted anchor, `(xn, yn)` the most recent sample of the current constant
run. -/
structure CompState where
  x0 : Int
  y0 : Int
  xn : Int
  yn : Int
deriving DecidableEq

/-- One iteration of the `for x, y in chunk` loop of `Compressor.compress`
(src/vzclient/compress.py 51-77): returns the values yielded during the
iteration and the updated state. -/
def Compressor.step (max_gap : Option Int) (s : CompState) (p : Int × Int) :
    List (Int × Int) × CompState :=
  if p.1 = s.xn then ([], s)
  else if p.2 = s.yn then
    match max_gap with
    | some g =>
      if g < p.1 - s.x0 then
        ([(s.x0, s.y0)], ⟨s.xn, s.yn, p.1, s.yn⟩)
      else
        ([], ⟨s.x0, s.y0, p.1, s.yn⟩)
    | none => ([], ⟨s.x0, s.y0, p.1, s.yn⟩)
  else
    ((s.x0, s.y0) :: (if s.xn ≠ s.x0 then [(s.xn, s.yn)] else []),
     ⟨p.1, p.2, p.1, p.2⟩)

/-- `Compressor.compress` over a whole chunk: concatenated yields plus the
final state. -/
def Compressor.compressList (max_gap : Option Int) :
    CompState → List (Int × Int) → List (Int × Int) × CompState
  | s, [] => ([], s)
  | s, p :: rest =>
    let r1 := Compressor.step max_gap s p
    let r2 := Compressor.compressList max_gap r1.2 rest
    (r1.1 ++ r2.1, r2.2)

/-- `Compressor.finalize` (src/vzclient/compress.py 79-89). -/
def Compressor.finalize (s : CompState) : List (Int × Int) :=
  (s.x0, s.y0) :: (if s.xn ≠ s.x0 then [(s.xn, s.yn)] else [])

/-- `Compressor.__call__` (src/vzclient/compress.py 17-34, also
`compress_const`): empty input yields nothing; otherwise the first sample
seeds the state and the rest is compressed and finalized. -/
def Compressor.run (max_gap : Option Int) : List (Int × Int) → List (Int × Int)
  | [] => []
  | p :: rest =>
    let r := Compressor.compressList max_gap ⟨p.1, p.2, p.1, p.2⟩ rest
    r.1 ++ Compressor.finalize r.2

/-- The output still to come from state `s` on remaining input `ps`
(`compress` on `ps` followed by `finalize`) — the proof-friendly recursion
underlying `Compressor.run`. -/
def Compressor.runFrom (max_gap : Option Int) :
    CompState → List (Int × Int) → List (Int × Int)
  | s, [] => Compressor.finalize s
  | s, p :: rest =>
    (Compressor.step max_gap s p).1 ++
      Compressor.runFrom max_gap (Compressor.step max_gap s p).2 rest

theorem Compressor.runFrom_cons (max_gap : Option Int) (s : CompState)
    (p : Int × Int) (rest : List (Int × Int)) :
    Compressor.runFrom max_gap s (p :: rest) =
      (Compressor.step max_gap s p).1 ++
        Compressor.runFrom max_gap (Compressor.step max_gap s p).2 rest := rfl

theorem Compressor.step_dup (max_gap : Option Int) (s : CompState) (p : Int × Int)
    (hx : p.1 = s.xn) : Compressor.step max_gap s p = ([], s) := by
  simp [Compressor.step, hx]

theorem Compressor.step_same (s : CompState) (p : Int × Int)
    (hx : ¬ p.1 = s.xn) (hy : p.2 = s.yn) :
    Compressor.step none s p = ([], ⟨s.x0, s.y0, p.1, s.yn⟩) := by
  simp [Compressor.step, hx, hy]

theorem Compressor.step_gap (g : Int) (s : CompState) (p : Int × Int)
    (hx : ¬ p.1 = s.xn) (hy : p.2 = s.yn) (hg : g < p.1 - s.x0) :
    Compressor.step (some g) s p =
      ([(s.x0, s.y0)], ⟨s.xn, s.yn, p.1, s.yn⟩) := by
  simp [Compressor.step, hx, hy, hg]

theorem Compressor.step_nogap (g : Int) (s : CompState) (p : Int × Int)
    (hx : ¬ p.1 = s.xn) (hy : p.2 = s.yn) (hg : ¬ g < p.1 - s.x0) :
    Compressor.step (some g) s p = ([], ⟨s.x0, s.y0, p.1, s.yn⟩) := by
  simp [Compressor.step, hx, hy, hg]

theorem Compressor.step_trans (max_gap : Option Int) (s : CompState) (p : Int × Int)
    (hx : ¬ p.1 = s.xn) (hy : ¬ p.2 = s.yn) :
    Compressor.step max_gap s p =
      ((s.x0, s.y0) :: (if s.xn ≠ s.x0 then [(s.xn, s.yn)] else []),
       ⟨p.1, p.2, p.1, p.2⟩) := by
  simp [Compressor.step, hx, hy]

theorem Compressor.compressList_finalize (max_gap : Option Int) :
    ∀ (ps : List (Int × Int)) (s : CompState),
    (Compressor.compressList max_gap s ps).1 ++
        Compressor.finalize (Compressor.compressList max_gap s ps).2 =
      Compressor.runFrom max_gap s ps := by
  intro ps
  induction ps with
  | nil => intro s; rfl
  | cons p rest ih =>
    intro s
    rw [Compressor.runFrom_cons]
    simp only [Compressor.compressList]
    rw [List.append_assoc, ih (Compressor.step max_gap s p).2]

theorem Compressor.run_eq_runFrom (max_gap : Option Int) (p : Int × Int)
    (rest : List (Int × Int)) :
    Compressor.run max_gap (p :: rest) =
      Compressor.runFrom max_gap ⟨p.1, p.2, p.1, p.2⟩ rest := by
  show (Compressor.compressList max_gap ⟨p.1, p.2, p.1, p.2⟩ rest).1 ++ _ = _
  rw [Compressor.compressList_finalize]

/-- Whether some two consecutive samples have equal `y`. -/
def hasAdjEqY : List (Int × Int) → Bool
  | a :: b :: t => (a.2 == b.2) || hasAdjEqY (b :: t)
  | _ => false

/-- Whether some three consecutive samples all have equal `y`. -/
def hasTripleEqY : List (Int × Int) → Bool
  | a :: b :: c :: t => (a.2 == b.2 && b.2 == c.2) || hasTripleEqY (b :: c :: t)
  | _ => false

/-- The output from any state always starts with the current anchor
`(x0, y0)`. -/
theorem Compressor.runFrom_head (max_gap : Option Int) :
    ∀ (ps : List (Int × Int)) (s : CompState),
    ∃ t, Compressor.runFrom max_gap s ps = (s.x0, s.y0) :: t := by
  intro ps
  induction ps with
  | nil => intro s; exact ⟨_, rfl⟩
  | cons p rest ih =>
    intro s
    rw [Compressor.runFrom_cons]
    by_cases hx : p.1 = s.xn
    · rw [Compressor.step_dup max_gap s p hx]
      simpa using ih s
    · by_cases hy : p.2 = s.yn
      · cases max_gap with
        | none =>
          rw [Compressor.step_same s p hx hy]
          obtain ⟨t, ht⟩ := ih ⟨s.x0, s.y0, p.1, s.yn⟩
          exact ⟨t, by simpa using ht⟩
        | some g =>
          by_cases hgap : g < p.1 - s.x0
          · rw [Compressor.step_gap g s p hx hy hgap]
            exact ⟨_, rfl⟩
          · rw [Compressor.step_nogap g s p hx hy hgap]
            obtain ⟨t, ht⟩ := ih ⟨s.x0, s.y0, p.1, s.yn⟩
            exact ⟨t, by simpa using ht⟩
      · rw [Compressor.step_trans max_gap s p hx hy]
        exact ⟨_, rfl⟩

/-- Every output element is the current anchor, the current run end, or one
of the remaining inputs. -/
theorem Compressor.runFrom_mem (mg : Option Int) :
    ∀ (ps : List (Int × Int)) (s : CompState) (q : Int × Int),
    q ∈ Compressor.runFrom mg s ps →
    q = (s.x0, s.y0) ∨ q = (s.xn, s.yn) ∨ q ∈ ps := by
  intro ps
  induction ps with
  | nil =>
    intro s q hq
    unfold Compressor.runFrom Compressor.finalize at hq
    rcases List.mem_cons.mp hq with rfl | hq2
    · exact Or.inl rfl
    · by_cases hne : s.xn ≠ s.x0
      · rw [if_pos hne] at hq2
        simp only [List.mem_singleton] at hq2
        exact Or.inr (Or.inl hq2)
      · rw [if_neg hne] at hq2
        simp at hq2
  | cons p rest ih =>
    intro s q hq
    rw [Compressor.runFrom_cons] at hq
    by_cases hx : p.1 = s.xn
    · rw [Compressor.step_dup mg s p hx] at hq
      rcases ih s q (by simpa using hq) with h | h | h
      · exact Or.inl h
      · exact Or.inr (Or.inl h)
      · exact Or.inr (Or.inr (List.mem_cons_of_mem p h))
    · by_cases hy : p.2 = s.yn
      · have hpeta : ((p.1, s.yn) : Int × Int) = p := by
          rw [← hy]
        cases mg with
        | none =>
          rw [Compressor.step_same s p hx hy] at hq
          rcases ih _ q (by simpa using hq) with h | h | h
          · exact Or.inl h
          · rw [hpeta] at h
            exact Or.inr (Or.inr (h ▸ List.mem_cons_self p rest))
          · exact Or.inr (Or.inr (List.mem_cons_of_mem p h))
        | some g =>
          by_cases hgap : g < p.1 - s.x0
          · rw [Compressor.step_gap g s p hx hy hgap] at hq
            simp only [List.cons_append, List.nil_append, List.mem_cons] at hq
            rcases hq with rfl | hq2
            · exact Or.inl rfl
            · rcases ih _ q hq2 with h | h | h
              · exact Or.inr (Or.inl h)
              · rw [hpeta] at h
                exact Or.inr (Or.inr (h ▸ List.mem_cons_self p rest))
              · exact Or.inr (Or.inr (List.mem_cons_of_mem p h))
          · rw [Compressor.step_nogap g s p hx hy hgap] at hq
            rcases ih _ q (by simpa using hq) with h | h | h
            · exact Or.inl h
            · rw [hpeta] at h
              exact Or.inr (Or.inr (h ▸ List.mem_cons_self p rest))
            · exact Or.inr (Or.inr (List.mem_cons_of_mem p h))
      · rw [Compressor.step_trans mg s p hx hy] at hq
        simp only [List.cons_append, List.mem_cons] at hq
        rcases hq with rfl | hq2
        · exact Or.inl rfl
        · have hq3 : q ∈ (if s.xn ≠ s.x0 then [(s.xn, s.yn)] else []) ∨
              q ∈ Compressor.runFrom mg ⟨p.1, p.2, p.1, p.2⟩ rest :=
            List.mem_append.mp hq2
          rcases hq3 with h | h
          · by_cases hne : s.xn ≠ s.x0
            · rw [if_pos hne] at h
              simp only [List.mem_singleton] at h
              exact Or.inr (Or.inl h)
            · rw [if_neg hne] at h
              simp at h
          · rcases ih _ q h with h2 | h2 | h2
            · simp only at h2
              rw [Prod.mk.eta] at h2
              exact Or.inr (Or.inr (h2 ▸ List.mem_cons_self p rest))
            · simp only at h2
              rw [Prod.mk.eta] at h2
              exact Or.inr (Or.inr (h2 ▸ List.mem_cons_self p rest))
            · exact Or.inr (Or.inr (List.mem_cons_of_mem p h2))

/-- A list of pairs with strictly increasing keys whose elements all occur
in a second list with strictly increasing keys is a sublist of it. -/
theorem sublist_of_mem_of_increasing_keys :
    ∀ (S O : List (Int × Int)),
    List.Pairwise (fun a b : Int × Int => a.1 < b.1) S →
    List.Pairwise (fun a b : Int × Int => a.1 < b.1) O →
    (∀ q ∈ O, q ∈ S) → O.Sublist S := by
  intro S
  induction S with
  | nil =>
    intro O _ _ hmem
    cases O with
    | nil => exact List.Sublist.refl []
    | cons o O' => exact absurd (hmem o (List.mem_cons_self o O')) (by simp)
  | cons a S' ih =>
    intro O hS hO hmem
    rw [List.pairwise_cons] at hS
    cases O with
    | nil => exact List.nil_sublist _
    | cons o O' =>
      rw [List.pairwise_cons] at hO
      by_cases hoa : o = a
      · subst hoa
        apply List.Sublist.cons₂
        apply ih O' hS.2 hO.2
        intro q hq
        have hq1 := hmem q (List.mem_cons_of_mem o hq)
        rcases List.mem_cons.mp hq1 with rfl | h
        · exact absurd (hO.1 q hq) (lt_irrefl q.1)
        · exact h
      · have hoS' : o ∈ S' := by
          rcases List.mem_cons.mp (hmem o (List.mem_cons_self o O')) with h | h
          · exact absurd h hoa
          · exact h
        have hao : a.1 < o.1 := hS.1 o hoS'
        apply List.Sublist.cons
        apply ih (o :: O') hS.2 (List.pairwise_cons.mpr hO)
        intro q hq
        rcases List.mem_cons.mp hq with rfl | hq2
        · exact hoS'
        · have hq1 := hmem q (List.mem_cons_of_mem o hq2)
          rcases List.mem_cons.mp hq1 with rfl | h
          · exact absurd (lt_trans hao (hO.1 q hq2)) (lt_irrefl q.1)
          · exact h

/-- With no gap bound and strictly increasing inputs, the output keys are
strictly increasing. -/
theorem Compressor.runFrom_none_chain :
    ∀ (ps : List (Int × Int)) (s : CompState),
    s.x0 ≤ s.xn →
    List.Chain' (· < ·) (s.xn :: ps.map Prod.fst) →
    List.Chain' (· < ·) ((Compressor.runFrom none s ps).map Prod.fst) := by
  intro ps
  induction ps with
  | nil =>
    intro s hle _
    unfold Compressor.runFrom Compressor.finalize
    by_cases hne : s.xn ≠ s.x0
    · rw [if_pos hne]
      simp only [List.map_cons, List.map_nil]
      exact List.chain'_cons.mpr ⟨lt_of_le_of_ne hle (Ne.symm hne), List.chain'_singleton _⟩
    · rw [if_neg hne]
      simp
  | cons p rest ih =>
    intro s hle hch
    simp only [List.map_cons] at hch
    rw [List.chain'_cons] at hch
    obtain ⟨hxp, hch2⟩ := hch
    rw [Compressor.runFrom_cons]
    by_cases hx : p.1 = s.xn
    · exact absurd hx.symm (ne_of_lt hxp)
    · by_cases hy : p.2 = s.yn
      · rw [Compressor.step_same s p hx hy]
        have := ih ⟨s.x0, s.y0, p.1, s.yn⟩ (le_of_lt (lt_of_le_of_lt hle hxp))
          (by simpa using hch2)
        simpa using this
      · rw [Compressor.step_trans none s p hx hy]
        obtain ⟨t, ht⟩ := Compressor.runFrom_head none rest ⟨p.1, p.2, p.1, p.2⟩
        have hrun := ih ⟨p.1, p.2, p.1, p.2⟩ (le_refl _) (by simpa using hch2)
        rw [ht] at hrun ⊢
        simp only [List.map_cons] at hrun
        by_cases hne : s.xn ≠ s.x0
        · rw [if_pos hne]
          simp only [List.cons_append, List.nil_append, List.singleton_append,
            List.map_cons]
          exact List.chain'_cons.mpr ⟨lt_of_le_of_ne hle (Ne.symm hne),
            List.chain'_cons.mpr ⟨hxp, hrun⟩⟩
        · rw [if_neg hne]
          have hx0 : s.x0 = s.xn := by
            by_contra hc
            exact hne (Ne.symm hc)
          simp only [List.nil_append, List.map_cons]
          exact List.chain'_cons.mpr ⟨by rw [hx0]; exact hxp, hrun⟩

/-- With no gap bound, the last output equals the last input. -/
theorem Compressor.runFrom_none_getLast :
    ∀ (ps : List (Int × Int)) (s : CompState),
    s.yn = s.y0 →
    List.Chain' (· < ·) (s.xn :: ps.map Prod.fst) →
    (Compressor.runFrom none s ps).getLast? = ((s.xn, s.yn) :: ps).getLast? := by
  intro ps
  induction ps with
  | nil =>
    intro s hyn _
    unfold Compressor.runFrom Compressor.finalize
    by_cases hne : s.xn ≠ s.x0
    · rw [if_pos hne]
      rfl
    · rw [if_neg hne]
      have hx0 : s.xn = s.x0 := by
        by_contra hc
        exact hne hc
      simp [hx0, hyn]
  | cons p rest ih =>
    intro s hyn hch
    simp only [List.map_cons] at hch
    rw [List.chain'_cons] at hch
    obtain ⟨hxp, hch2⟩ := hch
    rw [Compressor.runFrom_cons]
    by_cases hx : p.1 = s.xn
    · exact absurd hx.symm (ne_of_lt hxp)
    · by_cases hy : p.2 = s.yn
      · rw [Compressor.step_same s p hx hy]
        have := ih ⟨s.x0, s.y0, p.1, s.yn⟩ hyn (by simpa using hch2)
        have hpeta : ((p.1, s.yn) : Int × Int) = p := by rw [← hy]
        simp only at this
        rw [hpeta] at this
        rw [List.getLast?_cons_cons]
        simpa using this
      · rw [Compressor.step_trans none s p hx hy]
        have hrun := ih ⟨p.1, p.2, p.1, p.2⟩ rfl (by simpa using hch2)
        simp only [Prod.mk.eta] at hrun
        have hnn : Compressor.runFrom none ⟨p.1, p.2, p.1, p.2⟩ rest ≠ [] := by
          obtain ⟨t, ht⟩ := Compressor.runFrom_head none rest ⟨p.1, p.2, p.1, p.2⟩
          rw [ht]
          simp
        rw [List.getLast?_cons_cons]
        rw [List.cons_append]
        rw [show ((s.x0, s.y0) :: ((if s.xn ≠ s.x0 then [(s.xn, s.yn)] else []) ++
            Compressor.runFrom none ⟨p.1, p.2, p.1, p.2⟩ rest)) =
          ((s.x0, s.y0) :: (if s.xn ≠ s.x0 then [(s.xn, s.yn)] else [])) ++
            Compressor.runFrom none ⟨p.1, p.2, p.1, p.2⟩ rest from by
            rw [List.cons_append]]
        rw [List.getLast?_append_of_ne_nil _ hnn]
        exact hrun

theorem mem_zip_tail_cons {α : Type} (a : α) (l : List α) (pq : α × α)
    (h : pq ∈ l.zip l.tail) : pq ∈ (a :: l).zip (a :: l).tail := by
  cases l with
  | nil => simp at h
  | cons b l' =>
    simp only [List.tail_cons, List.zip_cons_cons] at h ⊢
    exact List.mem_cons_of_mem _ h

/-- With no gap bound, every value transition of the input appears as an
adjacent pair of the output. -/
theorem Compressor.runFrom_none_transitions :
    ∀ (ps : List (Int × Int)) (s : CompState),
    s.yn = s.y0 →
    List.Chain' (· < ·) (s.xn :: ps.map Prod.fst) →
    ∀ pq ∈ ((s.xn, s.yn) :: ps).zip ps, pq.1.2 ≠ pq.2.2 →
    pq ∈ (Compressor.runFrom none s ps).zip (Compressor.runFrom none s ps).tail := by
  intro ps
  induction ps with
  | nil =>
    intro s _ _ pq hpq _
    simp at hpq
  | cons p rest ih =>
    intro s hyn hch pq hpq hne
    simp only [List.map_cons] at hch
    rw [List.chain'_cons] at hch
    obtain ⟨hxp, hch2⟩ := hch
    have hxne : ¬ p.1 = s.xn := fun h => absurd h.symm (ne_of_lt hxp)
    rw [List.zip_cons_cons] at hpq
    rw [Compressor.runFrom_cons]
    by_cases hy : p.2 = s.yn
    · rw [Compressor.step_same s p hxne hy]
      have hpeta : ((p.1, s.yn) : Int × Int) = p := by rw [← hy]
      rcases List.mem_cons.mp hpq with rfl | hpq2
      · exact absurd hy.symm hne
      · have := ih ⟨s.x0, s.y0, p.1, s.yn⟩ hyn (by simpa using hch2) pq
          (by simpa [hpeta] using hpq2) hne
        simpa using this
    · rw [Compressor.step_trans none s p hxne hy]
      obtain ⟨t, ht⟩ := Compressor.runFrom_head none rest ⟨p.1, p.2, p.1, p.2⟩
      simp only [Prod.mk.eta] at ht
      rcases List.mem_cons.mp hpq with rfl | hpq2
      · -- the pair ((s.xn, s.yn), p) itself
        rw [ht]
        by_cases hne2 : s.xn ≠ s.x0
        · rw [if_pos hne2]
          simp only [List.cons_append, List.singleton_append, List.tail_cons,
            List.zip_cons_cons]
          exact List.mem_cons_of_mem _ (List.mem_cons_self _ _)
        · rw [if_neg hne2]
          have hx0 : s.xn = s.x0 := by
            by_contra hc
            exact hne2 hc
          simp only [List.nil_append, List.tail_cons, List.zip_cons_cons]
          have : ((s.x0, s.y0) : Int × Int) = (s.xn, s.yn) := by
            rw [hx0, hyn]
          rw [this]
          exact List.mem_cons_self _ _
      · have hmem := ih ⟨p.1, p.2, p.1, p.2⟩ rfl (by simpa using hch2) pq
          (by simpa using hpq2) hne
        rw [ht] at hmem ⊢
        by_cases hne2 : s.xn ≠ s.x0
        · rw [if_pos hne2]
          simp only [List.cons_append, List.singleton_append]
          exact mem_zip_tail_cons _ _ _ (mem_zip_tail_cons _ _ _ hmem)
        · rw [if_neg hne2]
          simp only [List.nil_append]
          exact mem_zip_tail_cons _ _ _ hmem

theorem tripleEqY_cons_of_ne (a b : Int × Int) (l : List (Int × Int))
    (hab : a.2 ≠ b.2) (h : hasTripleEqY (b :: l) = false) :
    hasTripleEqY (a :: b :: l) = false := by
  cases l with
  | nil => rfl
  | cons c t =>
    show (a.2 == b.2 && b.2 == c.2 || hasTripleEqY (b :: c :: t)) = false
    rw [h]
    simp [hab]

theorem tripleEqY_cons_of_ne2 (a b c : Int × Int) (t : List (Int × Int))
    (hbc : b.2 ≠ c.2) (h : hasTripleEqY (b :: c :: t) = false) :
    hasTripleEqY (a :: b :: c :: t) = false := by
  show (a.2 == b.2 && b.2 == c.2 || hasTripleEqY (b :: c :: t)) = false
  rw [h]
  simp [hbc]

/-- With no gap bound, the output never has three consecutive samples with
equal `y`: duplicate-`y` pairs occur only as the endpoints of a constant
run. -/
theorem Compressor.runFrom_none_noTriple :
    ∀ (ps : List (Int × Int)) (s : CompState),
    s.yn = s.y0 →
    List.Chain' (· < ·) (s.xn :: ps.map Prod.fst) →
    hasTripleEqY (Compressor.runFrom none s ps) = false := by
  intro ps
  induction ps with
  | nil =>
    intro s _ _
    unfold Compressor.runFrom Compressor.finalize
    by_cases hne : s.xn ≠ s.x0
    · rw [if_pos hne]
      rfl
    · rw [if_neg hne]
      rfl
  | cons p rest ih =>
    intro s hyn hch
    simp only [List.map_cons] at hch
    rw [List.chain'_cons] at hch
    obtain ⟨hxp, hch2⟩ := hch
    have hxne : ¬ p.1 = s.xn := fun h => absurd h.symm (ne_of_lt hxp)
    rw [Compressor.runFrom_cons]
    by_cases hy : p.2 = s.yn
    · rw [Compressor.step_same s p hxne hy]
      have := ih ⟨s.x0, s.y0, p.1, s.yn⟩ hyn (by simpa using hch2)
      simpa using this
    · rw [Compressor.step_trans none s p hxne hy]
      obtain ⟨t, ht⟩ := Compressor.runFrom_head none rest ⟨p.1, p.2, p.1, p.2⟩
      simp only [Prod.mk.eta] at ht
      have hrun := ih ⟨p.1, p.2, p.1, p.2⟩ rfl (by simpa using hch2)
      rw [ht] at hrun ⊢
      have hyp : s.yn ≠ p.2 := fun h => hy h.symm
      by_cases hne2 : s.xn ≠ s.x0
      · rw [if_pos hne2]
        simp only [List.cons_append, List.singleton_append]
        exact tripleEqY_cons_of_ne2 _ _ _ _ hyp
          (tripleEqY_cons_of_ne _ _ _ hyp hrun)
      · rw [if_neg hne2]
        simp only [List.nil_append]
        apply tripleEqY_cons_of_ne _ _ _ _ hrun
        show s.y0 ≠ p.2
        rw [← hyn]
        exact hyp

/-- C3 (amended): for a non-empty input with strictly increasing `x` and
`max_gap = None`, the output is a sub-sequence of the input, starts with the
first input, ends with the last input, contains every `y`-transition of the
input as an adjacent output pair, and never holds three consecutive points
of equal `y` (equal-`y` pairs occur only as the two endpoints of a constant
run). -/
theorem c3_compressor_no_gap (S : List (Int × Int)) (hne : S ≠ [])
    (hmono : List.Chain' (· < ·) (S.map Prod.fst)) :
    (Compressor.run none S).Sublist S ∧
    (Compressor.run none S).head? = S.head? ∧
    (Compressor.run none S).getLast? = S.getLast? ∧
    (∀ pq ∈ S.zip S.tail, pq.1.2 ≠ pq.2.2 →
      pq ∈ (Compressor.run none S).zip (Compressor.run none S).tail) ∧
    hasTripleEqY (Compressor.run none S) = false := by
  cases S with
  | nil => exact absurd rfl hne
  | cons p rest =>
    rw [Compressor.run_eq_runFrom]
    have hch : List.Chain' (· < ·)
        ((⟨p.1, p.2, p.1, p.2⟩ : CompState).xn :: rest.map Prod.fst) := by
      simpa using hmono
    have hyn : (⟨p.1, p.2, p.1, p.2⟩ : CompState).yn =
        (⟨p.1, p.2, p.1, p.2⟩ : CompState).y0 := rfl
    have hle : (⟨p.1, p.2, p.1, p.2⟩ : CompState).x0 ≤
        (⟨p.1, p.2, p.1, p.2⟩ : CompState).xn := le_refl _
    refine ⟨?_, ?_, ?_, ?_, ?_⟩
    · apply sublist_of_mem_of_increasing_keys
      · exact List.pairwise_map.mp (List.chain'_iff_pairwise.mp hmono)
      · exact List.pairwise_map.mp (List.chain'_iff_pairwise.mp
          (Compressor.runFrom_none_chain rest _ hle hch))
      · intro q hq
        rcases Compressor.runFrom_mem none rest _ q hq with h | h | h
        · simp only [Prod.mk.eta] at h
          exact h ▸ List.mem_cons_self p rest
        · simp only [Prod.mk.eta] at h
          exact h ▸ List.mem_cons_self p rest
        · exact List.mem_cons_of_mem p h
    · obtain ⟨t, ht⟩ := Compressor.runFrom_head none rest
        (⟨p.1, p.2, p.1, p.2⟩ : CompState)
      rw [ht]
      simp
    · rw [Compressor.runFrom_none_getLast rest _ hyn hch]
    · intro pq hpq hnepq
      apply Compressor.runFrom_none_transitions rest _ hyn hch pq ?_ hnepq
      simpa using hpq
    · exact Compressor.runFrom_none_noTriple rest _ hyn hch

/-- C3 counterexample: the claim as stated requires that no two consecutive
output pairs have equal `y`; but the all-equal input `[(1,1), (2,1)]`
(non-empty, strictly increasing `x`) compresses with `max_gap = None` to
`[(1,1), (2,1)]`, whose two consecutive points have equal `y` — as the
spec's own all-equal edge case ("exactly two points: first and last")
demands. -/
theorem c3_counterexample :
    ([((1 : Int), (1 : Int)), (2, 1)] ≠ ([] : List (Int × Int))) ∧
    List.Chain' (· < ·) (([((1 : Int), (1 : Int)), (2, 1)] :
      List (Int × Int)).map Prod.fst) ∧
    Compressor.run none [((1 : Int), (1 : Int)), (2, 1)] = [(1, 1), (2, 1)] ∧
    hasAdjEqY (Compressor.run none [((1 : Int), (1 : Int)), (2, 1)]) = true := by
  refine ⟨by decide, ?_, by decide, by decide⟩
  norm_num [List.chain'_cons]

/-- Witness for C3 at the spec's first compressor scenario. -/
theorem c3_witness :
    ([((1 : Int), (1 : Int)), (2, 1), (3, 1), (5, 1), (6, 1)] ≠
      ([] : List (Int × Int))) ∧
    Compressor.run none [((1 : Int), (1 : Int)), (2, 1), (3, 1), (5, 1), (6, 1)] =
      [(1, 1), (6, 1)] ∧
    (Compressor.run none
        [((1 : Int), (1 : Int)), (2, 1), (3, 1), (5, 1), (6, 1)]).Sublist
      [((1 : Int), (1 : Int)), (2, 1), (3, 1), (5, 1), (6, 1)] :=
  ⟨by decide, by decide,
   (c3_compressor_no_gap [((1 : Int), (1 : Int)), (2, 1), (3, 1), (5, 1), (6, 1)]
     (by decide) (by norm_num [List.chain'_cons])).1⟩

/-- With a finite gap bound and consecutive input gaps within the bound,
ALL consecutive output pairs are within the bound. -/
theorem Compressor.runFrom_gap_chain (g : Int) :
    ∀ (ps : List (Int × Int)) (s : CompState),
    s.x0 ≤ s.xn →
    (s.xn - s.x0 ≤ g ∨ s.xn = s.x0) →
    List.Chain' (· < ·) (s.xn :: ps.map Prod.fst) →
    List.Chain' (fun a b : Int => b - a ≤ g) (s.xn :: ps.map Prod.fst) →
    List.Chain' (fun a b : Int × Int => b.1 - a.1 ≤ g)
      (Compressor.runFrom (some g) s ps) := by
  intro ps
  induction ps with
  | nil =>
    intro s hle hdisj _ _
    unfold Compressor.runFrom Compressor.finalize
    by_cases hne : s.xn ≠ s.x0
    · rw [if_pos hne]
      refine List.chain'_cons.mpr ⟨?_, List.chain'_singleton _⟩
      rcases hdisj with h | h
      · exact h
      · exact absurd h hne
    · rw [if_neg hne]
      exact List.chain'_singleton _
  | cons p rest ih =>
    intro s hle hdisj hmono hgap
    simp only [List.map_cons] at hmono hgap
    rw [List.chain'_cons] at hmono hgap
    obtain ⟨hxp, hmono2⟩ := hmono
    obtain ⟨hgp, hgap2⟩ := hgap
    have hxne : ¬ p.1 = s.xn := fun h => absurd h.symm (ne_of_lt hxp)
    rw [Compressor.runFrom_cons]
    by_cases hy : p.2 = s.yn
    · by_cases hgapc : g < p.1 - s.x0
      · rw [Compressor.step_gap g s p hxne hy hgapc]
        obtain ⟨t, ht⟩ := Compressor.runFrom_head (some g) rest
          (⟨s.xn, s.yn, p.1, s.yn⟩ : CompState)
        have hrun := ih ⟨s.xn, s.yn, p.1, s.yn⟩ (le_of_lt hxp)
          (Or.inl (by simpa using hgp)) (by simpa using hmono2)
          (by simpa using hgap2)
        rw [ht] at hrun ⊢
        simp only [List.cons_append, List.nil_append]
        refine List.chain'_cons.mpr ⟨?_, hrun⟩
        simp only
        rcases hdisj with h | h
        · exact h
        · rw [h]
          omega
      · rw [Compressor.step_nogap g s p hxne hy hgapc]
        have hrun := ih ⟨s.x0, s.y0, p.1, s.yn⟩
          (le_of_lt (lt_of_le_of_lt hle hxp)) (Or.inl (by simpa using not_lt.mp hgapc))
          (by simpa using hmono2) (by simpa using hgap2)
        simpa using hrun
    · rw [Compressor.step_trans (some g) s p hxne hy]
      obtain ⟨t, ht⟩ := Compressor.runFrom_head (some g) rest
        (⟨p.1, p.2, p.1, p.2⟩ : CompState)
      have hrun := ih ⟨p.1, p.2, p.1, p.2⟩ (le_refl _) (Or.inr rfl)
        (by simpa using hmono2) (by simpa using hgap2)
      rw [ht] at hrun ⊢
      by_cases hne : s.xn ≠ s.x0
      · rw [if_pos hne]
        simp only [List.cons_append, List.singleton_append]
        refine List.chain'_cons.mpr ⟨?_, List.chain'_cons.mpr ⟨?_, hrun⟩⟩
        · rcases hdisj with h | h
          · exact h
          · exact absurd h hne
        · simpa using hgp
      · rw [if_neg hne]
        have hx0 : s.xn = s.x0 := by
          by_contra hc
          exact hne hc
        simp only [List.nil_append]
        refine List.chain'_cons.mpr ⟨?_, hrun⟩
        simp only
        rw [← hx0]
        exact hgp

/-- C4 (amended): with a finite `max_gap` and an input whose consecutive
samples are at most `max_gap` apart, no two consecutive output points with
equal `y` (indeed, no two consecutive output points at all) are more than
`max_gap` apart. -/
theorem c4_compressor_gap_bound (S : List (Int × Int)) (g : Int)
    (hmono : List.Chain' (· < ·) (S.map Prod.fst))
    (hgapin : List.Chain' (fun a b : Int => b - a ≤ g) (S.map Prod.fst)) :
    ∀ pq ∈ (Compressor.run (some g) S).zip (Compressor.run (some g) S).tail,
      pq.1.2 = pq.2.2 → pq.2.1 - pq.1.1 ≤ g := by
  cases S with
  | nil =>
    intro pq hpq _
    simp [Compressor.run] at hpq
  | cons p rest =>
    intro pq hpq _
    rw [Compressor.run_eq_runFrom] at hpq
    have hch := Compressor.runFrom_gap_chain g rest ⟨p.1, p.2, p.1, p.2⟩
      (le_refl _) (Or.inr rfl) (by simpa using hmono) (by simpa using hgapin)
    exact rel_of_mem_zip_tail hch hpq

/-- C4 counterexample: with `max_gap = 4` and input `[(0,1),(1,1),(100,1)]`
(strictly increasing `x`), the output is `[(0,1),(1,1),(100,1)]`, whose
consecutive points `(1,1)` and `(100,1)` have equal `y` but are 99 > 4
apart — because an input gap larger than `max_gap` is re-emitted as is. -/
theorem c4_counterexample :
    List.Chain' (· < ·) (([((0 : Int), (1 : Int)), (1, 1), (100, 1)] :
      List (Int × Int)).map Prod.fst) ∧
    Compressor.run (some 4) [((0 : Int), (1 : Int)), (1, 1), (100, 1)] =
      [(0, 1), (1, 1), (100, 1)] ∧
    ((((1 : Int), (1 : Int)), ((100 : Int), (1 : Int))) ∈
      (Compressor.run (some 4) [((0 : Int), (1 : Int)), (1, 1), (100, 1)]).zip
        (Compressor.run (some 4) [((0 : Int), (1 : Int)), (1, 1), (100, 1)]).tail) ∧
    ¬ ((100 : Int) - 1 ≤ 4) := by
  refine ⟨?_, by decide, by decide, by decide⟩
  norm_num [List.chain'_cons]

/-- Witness for C4 at the spec's second compressor scenario
(`max_gap = 4`). -/
theorem c4_witness :
    Compressor.run (some 4) [((1 : Int), (1 : Int)), (2, 1), (3, 1), (5, 1), (6, 1)] =
      [(1, 1), (5, 1), (6, 1)] ∧
    ((5 : Int) - 1 ≤ 4) :=
  ⟨by decide,
   c4_compressor_gap_bound [((1 : Int), (1 : Int)), (2, 1), (3, 1), (5, 1), (6, 1)] 4
     (by norm_num [List.chain'_cons]) (by norm_num [List.chain'_cons])
     (((1 : Int), (1 : Int)), ((5 : Int), (1 : Int))) (by decide) rfl⟩
